import Mathlib

/-!
# Verification of the lmsilo-transcribe job orchestration core

This file gives a shallow embedding, in Lean 4, of the parts of the
`lmsilo-transcribe` backend that the specification's claims are about, and
proves (or refutes) each claim against that embedding.

Conventions of the embedding:
* Python floats that carry times, durations and progress values are modelled
  as rationals (`ℚ`); `int(x)` on a non-negative value is `⌊x⌋`,
  Python `x // y` is `⌊x / y⌋` and `x % y` is `x - y * ⌊x / y⌋`
  (for the positive divisors used in the source these agree with Python).
* Python dicts that are used in insertion order (`speaker_times` in
  `find_speaker_for_segment`) are modelled as association lists that keep
  insertion order, exactly as CPython dicts do.
* Fallible code is modelled with `Except String`; the stage functions of the
  simple background runner (`services/background_tasks.py`) are embedded as
  pure functions from an environment describing the external collaborators
  (resolved models, adapter outcomes) to the produced job state, transcript
  and the list of broadcast events.
-/

/-! ## Job status (schemas/job.py, class JobStatus) -/

inductive JStatus where
  | pending
  | queued
  | processing
  | transcribing
  | diarizing
  | synthesizing
  | syncing
  | completed
  | failed
  | cancelled
deriving DecidableEq, Repr

/-- Terminal statuses per the spec glossary: `completed`, `failed`, `cancelled`. -/
def JStatus.isTerminal : JStatus → Bool
  | .completed => true
  | .failed => true
  | .cancelled => true
  | _ => false

/-! ## Diarization speaker assignment
(workers/diarization_worker.py, `find_speaker_for_segment`, lines 248-273) -/

/-- One diarization interval, an element of the `diarization : List[Dict]`
argument: keys `start`, `end`, `speaker`.  (`end` is a Lean keyword, the
field is called `stop` here.) -/
structure DiarSeg where
  start : ℚ
  stop : ℚ
  speaker : String
deriving DecidableEq, Repr

/-- `overlap = max(0, min(end, d_seg["end"]) - max(start, d_seg["start"]))`. -/
def overlapLen (s e : ℚ) (d : DiarSeg) : ℚ :=
  max 0 (min e d.stop - max s d.start)

/-- `speaker_times[speaker] = speaker_times.get(speaker, 0) + overlap` on a
CPython dict: an existing key keeps its position, a new key is appended. -/
def addTime : List (String × ℚ) → String → ℚ → List (String × ℚ)
  | [], sp, v => [(sp, v)]
  | (k, w) :: rest, sp, v =>
    if k = sp then (k, w + v) :: rest else (k, w) :: addTime rest sp v

/-- The `for d_seg in diarization` accumulation loop of
`find_speaker_for_segment`, with the accumulator made explicit. -/
def speakerTimesFrom (s e : ℚ) : List DiarSeg → List (String × ℚ) → List (String × ℚ)
  | [], acc => acc
  | d :: rest, acc =>
    let ov := overlapLen s e d
    speakerTimesFrom s e rest (if 0 < ov then addTime acc d.speaker ov else acc)

/-- The `speaker_times` dict built by `find_speaker_for_segment`. -/
def speaker_times (diarization : List DiarSeg) (s e : ℚ) : List (String × ℚ) :=
  speakerTimesFrom s e diarization []

/-- `max(p :: l, key=snd)` with Python's tie behaviour: a later element
replaces the current best only when strictly greater, so the first maximum
in iteration (= insertion) order wins. -/
def pickMax (p : String × ℚ) : List (String × ℚ) → String × ℚ
  | [] => p
  | q :: rest => pickMax (if p.2 < q.2 then q else p) rest

/-- `max(speaker_times, key=speaker_times.get)`; `none` on an empty dict
(the source returns `None` explicitly via `if not speaker_times`). -/
def maxBySnd : List (String × ℚ) → Option String
  | [] => none
  | p :: rest => some (pickMax p rest).1

/-- `find_speaker_for_segment(diarization, start, end)`
(workers/diarization_worker.py lines 248-273).  The early
`if not diarization: return None` is subsumed: an empty list yields an empty
`speaker_times` and hence `none`. -/
def find_speaker_for_segment (diarization : List DiarSeg) (s e : ℚ) : Option String :=
  maxBySnd (speaker_times diarization s e)

/-- Spec-side: total temporal overlap of a speaker's intervals with
`[s, e]` (the sum over all of that speaker's diarization intervals). -/
def totalOverlap (s e : ℚ) : List DiarSeg → String → ℚ
  | [], _ => 0
  | g :: rest, sp =>
    (if g.speaker = sp then overlapLen s e g else 0) + totalOverlap s e rest sp

/-- Spec-side: index of the first diarization interval of speaker `sp` that
has positive overlap with `[s, e]` (list length when there is none). -/
def firstPosIdx (s e : ℚ) (diarization : List DiarSeg) (sp : String) : ℕ :=
  diarization.findIdx (fun g => g.speaker == sp && decide (0 < overlapLen s e g))

/-- The insertion order of the keys of `speaker_times`: speakers in order of
their first positive-overlap interval. -/
def posOrder (s e : ℚ) : List DiarSeg → List String → List String
  | [], ks => ks
  | g :: rest, ks =>
    posOrder s e rest
      (if 0 < overlapLen s e g then
        (if g.speaker ∈ ks then ks else ks ++ [g.speaker]) else ks)

/-- Value associated to a key in an association list, `0` when absent. -/
def lookupV (acc : List (String × ℚ)) (sp : String) : ℚ :=
  match acc.find? (fun p => p.1 == sp) with
  | some p => p.2
  | none => 0

/-! ## Subtitle time formatting
(workers/stt_worker.py `format_srt_time`/`format_vtt_time`, lines 466-479,
and the identical pair in api/jobs.py lines 467-482) -/

/-- Python `x % m` for rational `x` and positive integer modulus `m`. -/
def pyMod (x : ℚ) (m : ℚ) : ℚ :=
  x - m * ⌊x / m⌋

/-- Python `f"{n:02d}"`: zero-pad to at least two digits. -/
def zfill2 (n : ℤ) : String :=
  if 0 ≤ n ∧ n < 10 then "0" ++ toString n else toString n

/-- Python `f"{n:03d}"`: zero-pad to at least three digits. -/
def zfill3 (n : ℤ) : String :=
  if 0 ≤ n ∧ n < 10 then "00" ++ toString n
  else if 10 ≤ n ∧ n < 100 then "0" ++ toString n
  else toString n

/-- The four fields computed by `format_srt_time`/`format_vtt_time`:
`hours = int(seconds // 3600)`, `minutes = int((seconds % 3600) // 60)`,
`secs = int(seconds % 60)`, `millis = int((seconds % 1) * 1000)`
(`int` is `⌊·⌋` on the non-negative values these receive). -/
def timeFields (seconds : ℚ) : ℤ × ℤ × ℤ × ℤ :=
  (⌊seconds / 3600⌋, ⌊pyMod seconds 3600 / 60⌋, ⌊pyMod seconds 60⌋,
   ⌊pyMod seconds 1 * 1000⌋)

/-- `format_srt_time(seconds)` -> `HH:MM:SS,mmm`. -/
def format_srt_time (seconds : ℚ) : String :=
  let f := timeFields seconds
  zfill2 f.1 ++ ":" ++ zfill2 f.2.1 ++ ":" ++ zfill2 f.2.2.1 ++ "," ++ zfill3 f.2.2.2

/-- `format_vtt_time(seconds)` -> `HH:MM:SS.mmm`. -/
def format_vtt_time (seconds : ℚ) : String :=
  let f := timeFields seconds
  zfill2 f.1 ++ ":" ++ zfill2 f.2.1 ++ ":" ++ zfill2 f.2.2.1 ++ "." ++ zfill3 f.2.2.2

/-! ## Timing sync combine step
(workers/sync_worker.py `combine_with_timing`, lines 193-250) -/

/-- One entry of the `segments` list passed to `combine_with_timing`:
its `start` time in seconds, the frame rate of its wav file, and its
16-bit samples already normalized to `[-1, 1]` (`s / 32768.0`). -/
structure SyncSeg where
  start : ℚ
  rate : ℕ
  samples : List ℚ
deriving Repr

/-- `audio_buffer[idx] = v` guarded by `if idx < len(audio_buffer)`.
(The source's `idx` is non-negative for the non-negative segment starts the
pipeline produces; Python's negative-index wraparound is not modelled.) -/
def writeAt (buf : List ℚ) (idx : ℤ) (v : ℚ) : List ℚ :=
  if 0 ≤ idx ∧ idx.toNat < buf.length then buf.set idx.toNat v else buf

/-- The `for i, s in enumerate(samples)` write loop: sample `i` goes to
index `start_sample + i`, writes past the buffer end are dropped. -/
def writeFrom (buf : List ℚ) (idx : ℤ) : List ℚ → List ℚ
  | [] => buf
  | v :: rest => writeFrom (writeAt buf idx v) (idx + 1) rest

/-- The `# Simple resampling if rates differ` branch:
`ratio = sample_rate / seg_rate; new_len = int(len(samples) * ratio);`
`samples = [samples[int(i / ratio)] for i in range(new_len)]`. -/
def resampleTo (sampleRate : ℕ) (seg : SyncSeg) : List ℚ :=
  if seg.rate = sampleRate then seg.samples
  else
    let ratio : ℚ := (sampleRate : ℚ) / (seg.rate : ℚ)
    let newLen := (⌊(seg.samples.length : ℚ) * ratio⌋).toNat
    (List.range newLen).map (fun i => seg.samples.getD (⌊(i : ℚ) / ratio⌋).toNat 0)

/-- `combine_with_timing(segments, total_duration, output_path)`: the sample
buffer it writes to `output_path` (before the int16 quantization of the
final `wave` write, which does not move samples).
`sample_rate = 22050`, `total_samples = int(total_duration * sample_rate)`,
`start_sample = int(seg["start"] * sample_rate)`. -/
def combine_with_timing (segments : List SyncSeg) (total_duration : ℚ) : List ℚ :=
  let sample_rate : ℚ := 22050
  let total_samples := (⌊total_duration * sample_rate⌋).toNat
  let buffer : List ℚ := List.replicate total_samples 0
  segments.foldl
    (fun buf seg => writeFrom buf ⌊seg.start * sample_rate⌋ (resampleTo 22050 seg))
    buffer

/-! ## Queue batch reorder
(api/queue.py `batch_reorder_queue`, lines 180-233) -/

/-- The job fields `batch_reorder_queue` reads and writes. -/
structure QJob where
  id : String
  status : JStatus
  priority : ℤ
  queue_position : ℤ
deriving DecidableEq, Repr

/-- Row lookup by id (`jobs_map[job_id]`). -/
def lookupJob (jobs : List QJob) (jid : String) : Option QJob :=
  jobs.find? (fun j => j.id == jid)

/-- The verification loop: for each id in order, 404 when missing, 400 when
the status is not `pending`/`queued`; `none` when all pass. -/
def validateReorderIds (jobs : List QJob) : List String → Option String
  | [] => none
  | jid :: rest =>
    match lookupJob jobs jid with
    | none => some ("Job " ++ jid ++ " not found")
    | some j =>
      if j.status = JStatus.pending ∨ j.status = JStatus.queued then
        validateReorderIds jobs rest
      else
        some ("Job " ++ jid ++ " is not in a reorderable state")

/-- The update applied to a listed job at 0-based `position`:
`job.priority = min(position + 1, 10)`, `job.queue_position = position + 1`. -/
def reorderUpd (j : QJob) (position : ℕ) : QJob :=
  { j with priority := min ((position : ℤ) + 1) 10,
           queue_position := (position : ℤ) + 1 }

/-- The `for position, job_id in enumerate(request.job_ids)` update loop,
with the running 0-based position made explicit. -/
def applyReorder (jobs : List QJob) : List String → ℕ → List QJob
  | [], _ => jobs
  | jid :: rest, position =>
    applyReorder
      (jobs.map (fun j => if j.id = jid then reorderUpd j position else j))
      rest (position + 1)

/-- `batch_reorder_queue(request, session)` on the persisted job rows:
empty-list 400, then the verification loop (any failure raises before any
row is touched), then the update loop and one commit. -/
def batch_reorder_queue (jobs : List QJob) (job_ids : List String) :
    Except String (List QJob) :=
  if job_ids.isEmpty then Except.error "job_ids list cannot be empty"
  else
    match validateReorderIds jobs job_ids with
    | some e => Except.error e
    | none => Except.ok (applyReorder jobs job_ids 0)

/-- The job rows as persisted after the request: the updated rows on
success, the untouched rows when the request was rejected. -/
def reorderOutcome (jobs : List QJob) (job_ids : List String) : List QJob :=
  match batch_reorder_queue jobs job_ids with
  | Except.ok jobs' => jobs'
  | Except.error _ => jobs

/-! ## Batch aggregate recomputation
(api/batches.py `update_batch_progress`, lines 261-287) -/

/-- The batch fields `update_batch_progress` reads and writes. -/
structure BatchState where
  total_files : ℕ
  completed_files : ℕ
  failed_files : ℕ
  progress : ℚ
  status : JStatus
deriving DecidableEq, Repr

/-- `update_batch_progress(session, batch_id)` applied to a batch whose
member jobs currently have statuses `members` (the `batch.jobs`
relationship; `total_files` was fixed at creation). -/
def update_batch_progress (members : List JStatus) (b : BatchState) : BatchState :=
  let completed := (members.filter (fun m => m = JStatus.completed)).length
  let failed := (members.filter (fun m => m = JStatus.failed)).length
  let b1 := { b with
    completed_files := completed
    failed_files := failed
    progress := ((completed : ℚ) + (failed : ℚ)) / (b.total_files : ℚ) * 100 }
  if b.total_files ≤ completed + failed then
    { b1 with status := if failed = 0 then JStatus.completed else JStatus.failed }
  else if 0 < completed + failed then
    { b1 with status := JStatus.processing }
  else b1

/-! ## Model download endpoint
(api/models.py `download_model` lines 214-235 and `download_model_task`
lines 313-354) -/

/-- The model fields the download endpoint reads. -/
structure DlModel where
  is_downloaded : Bool
deriving DecidableEq, Repr

/-- What one `POST /api/models/{id}/download` request does. -/
inductive DlDecision where
  | notFound
  | alreadyDownloaded
  | scheduled
deriving DecidableEq, Repr

/-- The decision logic of `download_model`: 404 when the row is missing,
an immediate `"Model already downloaded"` reply when
`model.is_downloaded and not request.force`, otherwise
`background_tasks.add_task(download_model_task, model_id)` — one scheduled
task per request, with no in-flight bookkeeping consulted or written. -/
def download_model (m : Option DlModel) (force : Bool) : DlDecision :=
  match m with
  | none => DlDecision.notFound
  | some m =>
    if m.is_downloaded ∧ ¬force then DlDecision.alreadyDownloaded
    else DlDecision.scheduled

/-- Number of underlying fetches (`download_model_for_engine` runs inside
`download_model_task`) started by a burst of requests with the given
`force` flags that all read the same persisted model row — i.e. that all
arrive before the first scheduled task commits any state.  Each request
whose decision is `scheduled` adds one task, hence one fetch. -/
def fetchesScheduled (m : Option DlModel) (reqs : List Bool) : ℕ :=
  (reqs.filter (fun force => download_model m force = DlDecision.scheduled)).length

/-! ## Job lifecycle state machine
(services/background_tasks.py `process_job_async` lines 19-98 and
api/jobs.py `create_job`/`delete_job`) -/

/-- The job fields the lifecycle claims are about (models/database.py `Job`:
`status` defaults to pending but `create_job` writes `queued`, `progress`
defaults to `0.0`). -/
structure JobState where
  status : JStatus
  progress : ℚ
  error_message : Option String
  started : Bool
deriving DecidableEq, Repr

/-- One persisted mutation (one commit) of a single job's row, on the
simple background runner path.  `none` is "no row" (before creation /
after deletion).  Each constructor is one commit of the source:
`create_job` writes a queued row; `process_job_async` commits
processing -> transcribing -> (progress 55 inside `run_transcription`) ->
optional diarizing -> optional synthesizing -> completed with progress 100,
and its `except` branch commits failed with the message, from any stage;
`delete_job` cancels (only live statuses) and deletes the row in a single
transaction, so the row simply disappears.  Priority and reorder endpoints
touch neither `status` nor `progress` and are omitted. -/
inductive JobStep : Option JobState → Option JobState → Prop where
  | create :
      JobStep none
        (some { status := JStatus.queued, progress := 0,
                error_message := none, started := false })
  | startProcessing (j : JobState) (h : j.status = JStatus.queued) :
      JobStep (some j) (some { j with status := JStatus.processing, started := true })
  | beginTranscribe (j : JobState) (h : j.status = JStatus.processing) :
      JobStep (some j) (some { j with status := JStatus.transcribing })
  | transcriptionSaved (j : JobState) (h : j.status = JStatus.transcribing) :
      JobStep (some j) (some { j with progress := 55 })
  | beginDiarize (j : JobState) (h : j.status = JStatus.transcribing) :
      JobStep (some j) (some { j with status := JStatus.diarizing })
  | beginSynthesize (j : JobState)
      (h : j.status = JStatus.transcribing ∨ j.status = JStatus.diarizing) :
      JobStep (some j) (some { j with status := JStatus.synthesizing })
  | complete (j : JobState)
      (h : j.status = JStatus.transcribing ∨ j.status = JStatus.diarizing ∨
           j.status = JStatus.synthesizing) :
      JobStep (some j) (some { j with status := JStatus.completed, progress := 100 })
  | fail (j : JobState) (e : String)
      (h : j.status = JStatus.processing ∨ j.status = JStatus.transcribing ∨
           j.status = JStatus.diarizing ∨ j.status = JStatus.synthesizing) :
      JobStep (some j) (some { j with status := JStatus.failed, error_message := some e })
  | deleteJob (j : JobState) : JobStep (some j) none

/-- States reachable from "no row" through the persisted mutations. -/
inductive JobReachable : Option JobState → Prop where
  | init : JobReachable none
  | step {a b : Option JobState} : JobReachable a → JobStep a b → JobReachable b

/-! ## Pipeline executor
(services/background_tasks.py: `process_job_async`, `broadcast_progress`,
`run_transcription`, `run_diarization`, `run_tts`) -/

/-- One transcript segment as produced by the STT adapter
(`{start, end, text, ...}`). -/
structure TransSeg where
  start : ℚ
  stop : ℚ
  text : String
deriving DecidableEq, Repr

/-- The adapter's `info` dict (always carries a `language` key, whose value
may be `None`, and a `duration`). -/
structure SttInfo where
  language : Option String
  duration : ℚ
deriving DecidableEq, Repr

/-- The model-row fields the stage functions read. -/
structure MRec where
  name : String
  is_downloaded : Bool
deriving DecidableEq, Repr

/-- The external collaborators of one `process_job_async` run: the job's
stage flags, the models each stage resolves (specified or type default),
and the outcome of each engine-adapter call. -/
structure PipelineEnv where
  enable_diarization : Bool
  enable_tts : Bool
  sttModel : Option MRec
  diarModel : Option MRec
  ttsModel : Option MRec
  sttResult : Except String (List TransSeg × SttInfo)
  diarResult : Except String (List DiarSeg)
  ttsResult : Except String Unit

/-- One event broadcast through `broadcast_progress(job_id, progress,
stage, message)` (`{"type": "job_progress", "data": {...}}`). -/
structure Event where
  progress : ℚ
  stage : String
  message : String
deriving DecidableEq, Repr

/-- One persisted `TranscriptSegment` row. -/
structure TSegRec where
  segment_index : ℕ
  start_time : ℚ
  end_time : ℚ
  text : String
  speaker : Option String
deriving DecidableEq, Repr

/-- The persisted `Transcript` row (plus its segment rows). -/
structure TranscriptRec where
  language : Option String
  duration : ℚ
  word_count : ℕ
  full_text : String
  speaker_count : ℕ
  segments : List TSegRec
deriving DecidableEq, Repr

/-- Helper for `pySplit`: walk the characters, accumulating the current
token (reversed); whitespace closes the token, runs of whitespace and
leading/trailing whitespace produce nothing. -/
def splitWsAux : List Char → List Char → List String
  | [], cur => if cur.isEmpty then [] else [String.mk cur.reverse]
  | c :: rest, cur =>
    if c.isWhitespace then
      (if cur.isEmpty then splitWsAux rest []
       else String.mk cur.reverse :: splitWsAux rest [])
    else splitWsAux rest (c :: cur)

/-- Python `str.split()` with no argument: split on runs of whitespace,
discarding empty tokens. -/
def pySplit (s : String) : List String :=
  splitWsAux s.data []

/-- `info.duration or 1` (Python `or`: `1` when the duration is `0`). -/
def or1 (d : ℚ) : ℚ := if d = 0 then 1 else d

/-- The events emitted through `run_transcription`'s `progress_cb`:
`transcribe_faster_whisper` reports, per adapter segment,
`p = min(seg.end / (info.duration or 1) * 100, 100)` and the callback
broadcasts `10 + p * 0.5` with stage "transcribing". -/
def sttProgressEvents (segs : List TransSeg) (info : SttInfo) : List Event :=
  segs.map (fun seg =>
    let p := min (seg.stop / or1 info.duration * 100) 100
    { progress := 10 + p * (1 / 2), stage := "transcribing",
      message := "Transcribing: " ++ toString ⌊p⌋ ++ "%" })

/-- The `Transcript` and `TranscriptSegment` rows written by
`run_transcription` on adapter success:
`word_count=sum(len(seg["text"].split()) for seg in segments)`,
`full_text=" ".join(seg["text"] for seg in segments)`; segments are stored
with dense indices in order and no speaker yet.  (`speaker_count` is the
column default `0` until diarization runs.) -/
def mkTranscript (segs : List TransSeg) (info : SttInfo) : TranscriptRec :=
  { language := info.language
    duration := info.duration
    word_count := (segs.map (fun seg => (pySplit seg.text).length)).sum
    full_text := String.intercalate " " (segs.map (fun seg => seg.text))
    speaker_count := 0
    segments := segs.enum.map (fun p =>
      { segment_index := p.1, start_time := p.2.start, end_time := p.2.stop,
        text := p.2.text, speaker := none }) }

/-- `run_transcription(session, job)`: model resolution (404-style
`ValueError`s, quotes of the source messages elided), then the adapter
call; on success the transcript rows and the callback events.  Errors are
raised before any callback fires. -/
def run_transcription (env : PipelineEnv) :
    Except String (TranscriptRec × List Event) :=
  match env.sttModel with
  | none => Except.error "No STT model available. Please register and download a model first."
  | some m =>
    if ¬m.is_downloaded then
      Except.error ("Model " ++ m.name ++ " is not downloaded. Please download it first.")
    else
      match env.sttResult with
      | Except.error e => Except.error e
      | Except.ok (segs, info) =>
        Except.ok (mkTranscript segs info, sttProgressEvents segs info)

/-- `run_diarization(session, job)`: missing / not-downloaded model skips
with a notice at 75; an adapter exception is caught (`except Exception`),
broadcast as `"Diarization failed: " + str(e)[:50]` and swallowed; on
success every transcript segment gets `find_speaker_for_segment` applied
and `speaker_count` becomes the number of distinct assigned labels.
This function never raises. -/
def run_diarization (env : PipelineEnv) (tr : TranscriptRec) :
    TranscriptRec × List Event :=
  match env.diarModel with
  | none => (tr, [⟨75, "diarizing", "No diarization model - skipping"⟩])
  | some m =>
    if ¬m.is_downloaded then
      (tr, [⟨75, "diarizing", "Diarization model not downloaded - skipping"⟩])
    else
      let ev0 : Event := ⟨62, "diarizing", "Running pyannote diarization..."⟩
      match env.diarResult with
      | Except.error e =>
        (tr, [ev0, ⟨75, "diarizing", "Diarization failed: " ++ e.take 50⟩])
      | Except.ok diar =>
        let segs' := tr.segments.map (fun sg =>
          { sg with speaker := find_speaker_for_segment diar sg.start_time sg.end_time })
        let speakers := (segs'.filterMap (fun sg => sg.speaker)).dedup
        ({ tr with segments := segs', speaker_count := speakers.length },
         [ev0, ⟨70, "diarizing", "Assigning speakers to segments..."⟩,
          ⟨75, "diarizing", "Identified " ++ toString speakers.length ++ " speakers"⟩])

/-- `run_tts(session, job)`: missing / not-downloaded model or missing
transcript skips with a notice at 95; an adapter exception is caught and
broadcast as `"TTS failed: " + str(e)[:50]` and swallowed.  This function
never raises. -/
def run_tts (env : PipelineEnv) (tr : Option TranscriptRec) : List Event :=
  match env.ttsModel with
  | none => [⟨95, "generating_tts", "No TTS model - skipping"⟩]
  | some m =>
    if ¬m.is_downloaded then
      [⟨95, "generating_tts", "TTS model not downloaded - skipping"⟩]
    else
      let ev0 : Event := ⟨82, "generating_tts", "Loading TTS model..."⟩
      match tr with
      | none => [ev0, ⟨95, "generating_tts", "No transcript for TTS - skipping"⟩]
      | some tr =>
        let ev1 : Event :=
          ⟨85, "generating_tts",
           "Synthesizing " ++ toString tr.segments.length ++ " segments..."⟩
        match env.ttsResult with
        | Except.error e => [ev0, ev1, ⟨95, "generating_tts", "TTS failed: " ++ e.take 50⟩]
        | Except.ok _ =>
          [ev0, ev1, ⟨92, "generating_tts", "Combining audio segments..."⟩,
           ⟨95, "generating_tts", "TTS complete"⟩]

/-- The outcome of one `process_job_async` run: the job row, the transcript
rows, and every event broadcast, in order. -/
structure PipelineResult where
  job : JobState
  transcript : Option TranscriptRec
  events : List Event
deriving Repr

/-- `process_job_async(job_id)` (lines 19-98).  Only the Transcribe stage
can raise in the embedded fragment (`run_diarization` and `run_tts` catch
their adapter errors); an exception reaches the `except` branch, which
marks the job failed with `str(e)`, broadcasts `(0, "failed", str(e))`,
and skips everything after the raising stage. -/
def process_job_async (env : PipelineEnv) (j0 : JobState) : PipelineResult :=
  let j2 : JobState :=
    { j0 with status := JStatus.transcribing, started := true }
  let ev2 : List Event :=
    [⟨0, "processing", "Starting job..."⟩, ⟨5, "transcribing", "Transcribing audio..."⟩]
  match run_transcription env with
  | Except.error e =>
    { job := { j2 with status := JStatus.failed, error_message := some e },
      transcript := none,
      events := ev2 ++ [⟨0, "failed", e⟩] }
  | Except.ok (tr, evStt) =>
    let j3 := { j2 with progress := (55 : ℚ) }
    let ev3 := ev2 ++ evStt
    let afterDiar :=
      if env.enable_diarization then
        let d := run_diarization env tr
        ({ j3 with status := JStatus.diarizing }, d.1,
         ev3 ++ [⟨60, "diarizing", "Identifying speakers..."⟩] ++ d.2)
      else (j3, tr, ev3)
    let afterTts :=
      if env.enable_tts then
        ({ afterDiar.1 with status := JStatus.synthesizing }, afterDiar.2.1,
         afterDiar.2.2 ++ [⟨80, "generating_tts", "Synthesizing speech..."⟩] ++
           run_tts env (some afterDiar.2.1))
      else afterDiar
    { job := { afterTts.1 with status := JStatus.completed, progress := 100 },
      transcript := some afterTts.2.1,
      events := afterTts.2.2 ++ [⟨100, "completed", "Job completed!"⟩] }

/-- The progress values broadcast by a run, in publication order. -/
def progressTrace (env : PipelineEnv) (j0 : JobState) : List ℚ :=
  (process_job_async env j0).events.map (fun ev => ev.progress)

/-! ## Auxiliary definitions used by the statements -/

/-- `a` occurs strictly before `b` in `xs`. -/
def listBefore (xs : List String) (a b : String) : Prop :=
  b ∈ xs ∧ xs.indexOf a < xs.indexOf b

/-- A freshly created job row (`create_job` writes status `queued`,
`progress` has column default `0.0`). -/
def jobStart : JobState :=
  { status := JStatus.queued, progress := 0, error_message := none, started := false }

/-- A run in which STT model resolution fails: `run_transcription` raises
before any model is touched. -/
def envFail : PipelineEnv :=
  { enable_diarization := false, enable_tts := false,
    sttModel := none, diarModel := none, ttsModel := none,
    sttResult := Except.error "unused", diarResult := Except.error "unused",
    ttsResult := Except.ok () }

/-- A fully-featured run in which the diarization engine call raises
(`diarize_pyannote` throws) while STT and TTS succeed. -/
def envDiarFail : PipelineEnv :=
  { enable_diarization := true, enable_tts := true,
    sttModel := some { name := "base", is_downloaded := true },
    diarModel := some { name := "pyannote/sd", is_downloaded := true },
    ttsModel := some { name := "xtts-v2", is_downloaded := true },
    sttResult := Except.ok ([{ start := 0, stop := 1, text := "hi there" }],
                            { language := some "en", duration := 1 }),
    diarResult := Except.error "CUDA out of memory",
    ttsResult := Except.ok () }

/-- Like `envDiarFail` but with an empty adapter segment list, keeping
every broadcast progress value a literal. -/
def envEngineFail : PipelineEnv :=
  { enable_diarization := true, enable_tts := true,
    sttModel := some { name := "base", is_downloaded := true },
    diarModel := some { name := "pyannote/sd", is_downloaded := true },
    ttsModel := some { name := "xtts-v2", is_downloaded := true },
    sttResult := Except.ok ([], { language := some "en", duration := 1 }),
    diarResult := Except.error "CUDA out of memory",
    ttsResult := Except.ok () }

/-! ## Theorems -/

/-! ### C8: model download single-flight -/

/-- C8 counterexample: with the model not yet downloaded, two concurrent
`download` requests (both reading the same persisted row, neither forced)
are BOTH scheduled, so two underlying fetches run — the claimed
single-flight ("exactly one underlying fetch") does not hold. -/
theorem download_singleflight_counterexample :
    download_model (some { is_downloaded := false }) false = DlDecision.scheduled
    ∧ fetchesScheduled (some { is_downloaded := false }) [false, false] = 2
    ∧ fetchesScheduled (some { is_downloaded := false }) [false, false] ≠ 1 := by
  decide

/-- C8 amended: there is no single-flight guard at all.  Every request that
observes the model row with `is_downloaded = false` schedules its own
`download_model_task`, hence its own underlying fetch: a burst of `n`
such requests performs `n` fetches.  Only a request that observes
`is_downloaded = true` without `force` skips the fetch. -/
theorem download_no_singleflight (m : DlModel) (reqs : List Bool)
    (h : m.is_downloaded = false) :
    fetchesScheduled (some m) reqs = reqs.length
    ∧ (∀ force : Bool, download_model (some m) force = DlDecision.scheduled)
    ∧ (∀ m' : DlModel, m'.is_downloaded = true →
        download_model (some m') false = DlDecision.alreadyDownloaded) := by
  refine ⟨?_, ?_, ?_⟩
  · simp [fetchesScheduled, download_model, h]
  · intro force; simp [download_model, h]
  · intro m' h'; simp [download_model, h']

/-- C8 witness: both conjuncts of the amended theorem at a concrete state. -/
theorem download_no_singleflight_witness :
    ({ is_downloaded := false } : DlModel).is_downloaded = false
    ∧ fetchesScheduled (some { is_downloaded := false }) [false, true, false] = 3 := by
  exact ⟨rfl, (download_no_singleflight { is_downloaded := false } [false, true, false] rfl).1⟩

/-! ### C7: batch aggregate recomputation -/

/-- The completed and failed member counts are disjoint: their sum is at
most the member count, with equality exactly when every member is
completed or failed. -/
theorem filter_completed_failed_length (members : List JStatus) :
    (members.filter (fun m => m = JStatus.completed)).length
      + (members.filter (fun m => m = JStatus.failed)).length ≤ members.length
    ∧ ((members.filter (fun m => m = JStatus.completed)).length
        + (members.filter (fun m => m = JStatus.failed)).length = members.length
       ↔ ∀ m ∈ members, m = JStatus.completed ∨ m = JStatus.failed) := by
  induction members with
  | nil => simp
  | cons m rest ih =>
    obtain ⟨ih1, ih2⟩ := ih
    cases m <;> simp [List.filter_cons] <;>
      first
      | (rw [← ih2]; omega)
      | omega

/-- No member failed iff the failed-member count is zero. -/
theorem failed_filter_empty_iff (members : List JStatus) :
    (members.filter (fun m => m = JStatus.failed)).length = 0
      ↔ JStatus.failed ∉ members := by
  rw [List.length_eq_zero, List.filter_eq_nil_iff]
  constructor
  · intro h hm
    exact absurd (by simp : decide (JStatus.failed = JStatus.failed) = true) (h _ hm)
  · intro h a ha
    simp only [decide_eq_true_eq]
    intro he
    exact h (he ▸ ha)

/-- C7 counterexample: a batch of two members, one `completed` and one
`cancelled`.  Every member is terminal, yet the recomputed batch status is
`processing` — not terminal — because `update_batch_progress` counts only
`completed` and `failed` members.  The claimed "batch reaches a terminal
status exactly when all of its member jobs are in a terminal status" fails. -/
theorem batch_terminal_counterexample :
    (update_batch_progress [JStatus.completed, JStatus.cancelled]
        { total_files := 2, completed_files := 0, failed_files := 0,
          progress := 0, status := JStatus.processing }).status = JStatus.processing
    ∧ (update_batch_progress [JStatus.completed, JStatus.cancelled]
        { total_files := 2, completed_files := 0, failed_files := 0,
          progress := 0, status := JStatus.processing }).status.isTerminal = false
    ∧ (∀ m ∈ [JStatus.completed, JStatus.cancelled], m.isTerminal = true) := by
  decide

/-- C7 amended: after recomputation on a member transition,
`completed_files + failed_files ≤ total_files`; the batch reaches a
terminal status exactly when every member is `completed` or `failed`
(a `cancelled` member therefore keeps the batch non-terminal forever);
and the terminal status is `completed` iff no member failed. -/
theorem update_batch_progress_spec (members : List JStatus) (b : BatchState)
    (hlen : members.length = b.total_files)
    (hpre : b.status = JStatus.pending ∨ b.status = JStatus.processing) :
    (update_batch_progress members b).completed_files
        + (update_batch_progress members b).failed_files ≤ b.total_files
    ∧ ((update_batch_progress members b).status.isTerminal = true
       ↔ ∀ m ∈ members, m = JStatus.completed ∨ m = JStatus.failed)
    ∧ ((update_batch_progress members b).status.isTerminal = true →
       ((update_batch_progress members b).status = JStatus.completed
        ↔ JStatus.failed ∉ members)) := by
  obtain ⟨hle, hiff⟩ := filter_completed_failed_length members
  by_cases hterm :
      b.total_files ≤ (members.filter (fun m => m = JStatus.completed)).length
        + (members.filter (fun m => m = JStatus.failed)).length
  · have heq : (members.filter (fun m => m = JStatus.completed)).length
        + (members.filter (fun m => m = JStatus.failed)).length = members.length := by
      omega
    refine ⟨?_, ?_, ?_⟩
    · simp only [update_batch_progress, if_pos hterm]
      omega
    · simp only [update_batch_progress, if_pos hterm]
      rw [← hiff]
      constructor
      · intro _; exact heq
      · intro _
        by_cases hf : (members.filter (fun m => m = JStatus.failed)).length = 0 <;>
          simp [hf, JStatus.isTerminal]
    · simp only [update_batch_progress, if_pos hterm]
      intro _
      by_cases hf : (members.filter (fun m => m = JStatus.failed)).length = 0
      · simp [hf, (failed_filter_empty_iff members).mp hf]
      · simp only [if_neg hf]
        constructor
        · intro h; exact absurd h (by simp)
        · intro h; exact absurd ((failed_filter_empty_iff members).mpr h) hf
  · have hne : ¬((members.filter (fun m => m = JStatus.completed)).length
        + (members.filter (fun m => m = JStatus.failed)).length = members.length) := by
      omega
    have hstat : (update_batch_progress members b).status = JStatus.processing
        ∨ (update_batch_progress members b).status = b.status := by
      simp only [update_batch_progress, if_neg hterm]
      by_cases hz : 0 < (members.filter (fun m => m = JStatus.completed)).length
          + (members.filter (fun m => m = JStatus.failed)).length <;>
        simp [hz]
    have hterminal : (update_batch_progress members b).status.isTerminal = false := by
      rcases hstat with h | h <;> rw [h]
      · rfl
      · rcases hpre with h' | h' <;> rw [h'] <;> rfl
    refine ⟨?_, ?_, ?_⟩
    · simp only [update_batch_progress, if_neg hterm]
      by_cases hz : 0 < (members.filter (fun m => m = JStatus.completed)).length
          + (members.filter (fun m => m = JStatus.failed)).length <;>
        simp [hz] <;> omega
    · rw [hterminal, ← hiff]
      simp [hne]
    · rw [hterminal]
      intro h
      exact absurd h (by simp)

/-- C7 witness: the amended theorem applied to a two-member batch with one
completed and one failed member. -/
theorem update_batch_progress_spec_witness :
    ([JStatus.completed, JStatus.failed].length =
      ({ total_files := 2, completed_files := 0, failed_files := 0,
         progress := 0, status := JStatus.processing } : BatchState).total_files)
    ∧ ((update_batch_progress [JStatus.completed, JStatus.failed]
          { total_files := 2, completed_files := 0, failed_files := 0,
            progress := 0, status := JStatus.processing }).status.isTerminal = true
       ↔ ∀ m ∈ [JStatus.completed, JStatus.failed],
           m = JStatus.completed ∨ m = JStatus.failed) :=
  ⟨by decide,
   (update_batch_progress_spec [JStatus.completed, JStatus.failed]
      { total_files := 2, completed_files := 0, failed_files := 0,
        progress := 0, status := JStatus.processing }
      (by decide) (Or.inr rfl)).2.1⟩

/-! ### C9: SRT/VTT time formatting -/

/-- Floor of a rational divided by a positive integer: `⌊a / n⌋ = ⌊a⌋ / n`
(integer euclidean division). -/
theorem floor_div_int_pos (a : ℚ) (n : ℤ) (hn : 0 < n) :
    ⌊a / (n : ℚ)⌋ = ⌊a⌋ / n := by
  have hn0 : (0 : ℚ) < (n : ℚ) := by exact_mod_cast hn
  have hfle : ((⌊a⌋ : ℤ) : ℚ) ≤ a := Int.floor_le a
  have hflt : a < (⌊a⌋ : ℚ) + 1 := Int.lt_floor_add_one a
  have hmod : ⌊a⌋ % n = ⌊a⌋ - n * (⌊a⌋ / n) := Int.emod_def _ _
  have hm0 : 0 ≤ ⌊a⌋ % n := Int.emod_nonneg _ (by omega)
  have hmn : ⌊a⌋ % n < n := Int.emod_lt_of_pos _ hn
  rw [Int.floor_eq_iff]
  constructor
  · rw [le_div_iff₀ hn0]
    have key : (⌊a⌋ / n) * n ≤ ⌊a⌋ := by nlinarith [hmod, hm0]
    have keyQ : ((⌊a⌋ / n : ℤ) : ℚ) * (n : ℚ) ≤ ((⌊a⌋ : ℤ) : ℚ) := by
      exact_mod_cast key
    linarith
  · rw [div_lt_iff₀ hn0]
    have key : ⌊a⌋ + 1 ≤ (⌊a⌋ / n) * n + n := by nlinarith [hmod, hmn]
    have keyQ : ((⌊a⌋ : ℤ) : ℚ) + 1 ≤ ((⌊a⌋ / n : ℤ) : ℚ) * (n : ℚ) + (n : ℚ) := by
      exact_mod_cast key
    nlinarith

/-- The nested floor/mod expressions of `format_srt_time` equal the
canonical clock-field decomposition. -/
theorem timeFields_eq (t : ℚ) :
    timeFields t = (⌊t / 3600⌋, ⌊t / 60⌋ % 60, ⌊t⌋ % 60, ⌊(t - (⌊t⌋ : ℚ)) * 1000⌋) := by
  have h3600 : ⌊t / 3600⌋ = ⌊t / 60⌋ / 60 := by
    have : t / 3600 = (t / 60) / ((60 : ℤ) : ℚ) := by push_cast; ring
    rw [this, floor_div_int_pos (t / 60) 60 (by norm_num)]
  have h60 : ⌊t / 60⌋ = ⌊t⌋ / 60 := by
    have : t / 60 = t / ((60 : ℤ) : ℚ) := by push_cast; ring
    rw [this, floor_div_int_pos t 60 (by norm_num)]
  refine Prod.ext rfl (Prod.ext ?_ (Prod.ext ?_ ?_))
  · show ⌊pyMod t 3600 / 60⌋ = ⌊t / 60⌋ % 60
    have harg : pyMod t 3600 / 60 = t / 60 - ((60 * ⌊t / 3600⌋ : ℤ) : ℚ) := by
      rw [pyMod]; push_cast; ring
    rw [harg, Int.floor_sub_int, h3600, Int.emod_def]
  · show ⌊pyMod t 60⌋ = ⌊t⌋ % 60
    have harg : pyMod t 60 = t - ((60 * ⌊t / 60⌋ : ℤ) : ℚ) := by
      rw [pyMod]; push_cast; ring
    rw [harg, Int.floor_sub_int, h60, Int.emod_def]
  · show ⌊pyMod t 1 * 1000⌋ = ⌊(t - (⌊t⌋ : ℚ)) * 1000⌋
    have harg : pyMod t 1 = t - (⌊t⌋ : ℚ) := by
      rw [pyMod, div_one]; ring
    rw [harg]

/-- C9: for non-negative `t`, the SRT timestamp is
`HH:MM:SS,mmm` and the VTT timestamp `HH:MM:SS.mmm`, where hours, minutes
and whole seconds are the floors of the corresponding quotients of `t`
(each clock field in range) and the milliseconds field is
`⌊frac(t) * 1000⌋`.  Confirms the claimed `floor` semantics. -/
theorem subtitle_time_format (t : ℚ) (ht : 0 ≤ t) :
    format_srt_time t =
      zfill2 ⌊t / 3600⌋ ++ ":" ++ zfill2 (⌊t / 60⌋ % 60) ++ ":" ++
        zfill2 (⌊t⌋ % 60) ++ "," ++ zfill3 ⌊(t - (⌊t⌋ : ℚ)) * 1000⌋
    ∧ format_vtt_time t =
      zfill2 ⌊t / 3600⌋ ++ ":" ++ zfill2 (⌊t / 60⌋ % 60) ++ ":" ++
        zfill2 (⌊t⌋ % 60) ++ "." ++ zfill3 ⌊(t - (⌊t⌋ : ℚ)) * 1000⌋
    ∧ 0 ≤ ⌊t / 3600⌋
    ∧ (0 ≤ ⌊t / 60⌋ % 60 ∧ ⌊t / 60⌋ % 60 < 60)
    ∧ (0 ≤ ⌊t⌋ % 60 ∧ ⌊t⌋ % 60 < 60)
    ∧ (0 ≤ ⌊(t - (⌊t⌋ : ℚ)) * 1000⌋ ∧ ⌊(t - (⌊t⌋ : ℚ)) * 1000⌋ < 1000) := by
  have hfrac0 : 0 ≤ t - (⌊t⌋ : ℚ) := by
    have := Int.floor_le t; linarith
  have hfrac1 : t - (⌊t⌋ : ℚ) < 1 := by
    have := Int.lt_floor_add_one t; linarith
  refine ⟨?_, ?_, ?_, ⟨?_, ?_⟩, ⟨?_, ?_⟩, ⟨?_, ?_⟩⟩
  · rw [format_srt_time, timeFields_eq]
  · rw [format_vtt_time, timeFields_eq]
  · exact Int.floor_nonneg.mpr (by positivity)
  · exact Int.emod_nonneg _ (by norm_num)
  · exact Int.emod_lt_of_pos _ (by norm_num)
  · exact Int.emod_nonneg _ (by norm_num)
  · exact Int.emod_lt_of_pos _ (by norm_num)
  · exact Int.floor_nonneg.mpr (by positivity)
  · exact Int.floor_lt.mpr (by push_cast; nlinarith)

/-- C9 witness: the formatting theorem applied at `t = 3661.5 s`,
yielding `01:01:01,500`. -/
theorem subtitle_time_format_witness :
    0 ≤ (7323 / 2 : ℚ) ∧ format_srt_time (7323 / 2) = "01:01:01,500" := by
  constructor
  · norm_num
  · rw [(subtitle_time_format (7323 / 2) (by norm_num)).1]
    have e1 : ⌊(7323 / 2 : ℚ) / 3600⌋ = 1 := by norm_num
    have e2 : ⌊(7323 / 2 : ℚ) / 60⌋ = 61 := by norm_num
    have e3 : ⌊(7323 / 2 : ℚ)⌋ = 3661 := by norm_num
    rw [e1, e2, e3]
    norm_num
    rfl

/-! ### C10: transcript full text and word count -/

/-- C10: the Transcript row stored by the Transcribe stage has
`full_text` equal to the segment texts joined in order by single spaces and
`word_count` equal to the total number of whitespace-separated tokens over
all segment texts.  Confirms the claim (the source computes exactly
`" ".join(...)` and `sum(len(seg["text"].split()) ...)`). -/
theorem transcript_text_and_word_count (env : PipelineEnv)
    (segs : List TransSeg) (info : SttInfo) (tr : TranscriptRec) (evs : List Event)
    (hstt : env.sttResult = Except.ok (segs, info))
    (hrun : run_transcription env = Except.ok (tr, evs))
    (hne : segs ≠ []) :
    tr.full_text = String.intercalate " " (segs.map (fun seg => seg.text))
    ∧ tr.word_count = (segs.map (fun seg => (pySplit seg.text).length)).sum
    ∧ tr.segments.map (fun sg => sg.text) = segs.map (fun seg => seg.text) := by
  have htr : tr = mkTranscript segs info := by
    rcases hm : env.sttModel with _ | m
    · rw [run_transcription, hm] at hrun
      exact absurd hrun (by simp)
    · rw [run_transcription, hm, hstt] at hrun
      by_cases hd : m.is_downloaded = true
      · simp only [hd, not_true_eq_false, if_false, Except.ok.injEq] at hrun
        exact (congrArg Prod.fst hrun).symm
      · simp only [hd, not_false_eq_true, if_true] at hrun
        exact absurd hrun (by simp)
  subst htr
  refine ⟨rfl, rfl, ?_⟩
  show (segs.enum.map (fun p =>
      ({ segment_index := p.1, start_time := p.2.start, end_time := p.2.stop,
         text := p.2.text, speaker := none } : TSegRec))).map (fun sg => sg.text)
    = segs.map (fun seg => seg.text)
  rw [List.map_map]
  calc segs.enum.map ((fun sg : TSegRec => sg.text) ∘ fun p =>
        ({ segment_index := p.1, start_time := p.2.start, end_time := p.2.stop,
           text := p.2.text, speaker := none } : TSegRec))
      = (segs.enum.map Prod.snd).map (fun seg => seg.text) := by
        rw [List.map_map]; rfl
    _ = segs.map (fun seg => seg.text) := by rw [List.enum_map_snd]

/-- C10 witness: the theorem applied to a concrete two-segment run. -/
theorem transcript_text_and_word_count_witness :
    (envDiarFail.sttResult =
      Except.ok ([{ start := 0, stop := 1, text := "hi there" }],
                 { language := some "en", duration := 1 }))
    ∧ ∃ tr evs, run_transcription envDiarFail = Except.ok (tr, evs)
        ∧ tr.full_text = "hi there" ∧ tr.word_count = 2 := by
  refine ⟨rfl, mkTranscript [{ start := 0, stop := 1, text := "hi there" }]
      { language := some "en", duration := 1 },
    sttProgressEvents [{ start := 0, stop := 1, text := "hi there" }]
      { language := some "en", duration := 1 }, rfl, ?_, ?_⟩
  · have h := transcript_text_and_word_count envDiarFail
      [{ start := 0, stop := 1, text := "hi there" }]
      { language := some "en", duration := 1 } _ _ rfl rfl (by simp)
    rw [h.1]
    decide
  · have h := transcript_text_and_word_count envDiarFail
      [{ start := 0, stop := 1, text := "hi there" }]
      { language := some "en", duration := 1 } _ _ rfl rfl (by simp)
    rw [h.2.1]
    decide

/-! ### C5: timing-sync combine step -/

/-- A guarded buffer write never changes the buffer length. -/
theorem writeAt_length (buf : List ℚ) (idx : ℤ) (v : ℚ) :
    (writeAt buf idx v).length = buf.length := by
  rw [writeAt]
  split
  · exact List.length_set buf _ _
  · rfl

/-- Writing a segment never changes the buffer length. -/
theorem writeFrom_length (l : List ℚ) : ∀ (buf : List ℚ) (idx : ℤ),
    (writeFrom buf idx l).length = buf.length := by
  induction l with
  | nil => intro buf idx; rfl
  | cons v rest ih =>
    intro buf idx
    rw [writeFrom, ih, writeAt_length]

/-- C5 counterexample: with original duration `T = 0.375 s` (and no
segments) the produced buffer has `int(0.375 * 22050) = 8268` samples,
while the claimed `round(T * sample_rate)` is `8269`: the source truncates
(`int(...)`), it does not round. -/
theorem combine_length_counterexample :
    (combine_with_timing [] (3 / 8)).length = 8268
    ∧ round ((3 / 8 : ℚ) * 22050) = 8269
    ∧ (8268 : ℤ) ≠ 8269 := by
  refine ⟨?_, ?_, by decide⟩
  · have h : ⌊(3 / 8 : ℚ) * 22050⌋ = 8268 := by norm_num
    simp only [combine_with_timing, List.foldl_nil, List.length_replicate, h]
    rfl
  · rw [round_eq]
    norm_num

/-- C5 amended: the buffer has `⌊T * 22050⌋` samples (truncation, not
rounding); a segment write places sample `j` at buffer index
`start_sample + j`, drops indices at or past the buffer end, and leaves
all other indices unchanged; and the buffer produced for `segs ++ [seg]`
is the buffer for `segs` overwritten by `seg` (later segment wins), with
`start_sample = ⌊seg.start * 22050⌋`. -/
theorem combine_with_timing_spec :
    (∀ (segs : List SyncSeg) (T : ℚ), 0 ≤ T →
      (combine_with_timing segs T).length = (⌊T * 22050⌋).toNat)
    ∧ (∀ (buf : List ℚ) (st : ℤ) (l : List ℚ) (i : ℕ),
      (writeFrom buf st l).getD i 0 =
        if st ≤ (i : ℤ) ∧ (i : ℤ) < st + l.length ∧ i < buf.length
        then l.getD ((i : ℤ) - st).toNat 0
        else buf.getD i 0)
    ∧ (∀ (segs : List SyncSeg) (seg : SyncSeg) (T : ℚ),
      combine_with_timing (segs ++ [seg]) T =
        writeFrom (combine_with_timing segs T) ⌊seg.start * 22050⌋
          (resampleTo 22050 seg)) := by
  refine ⟨?_, ?_, ?_⟩
  · intro segs T _
    rw [combine_with_timing]
    have hfold : ∀ (ss : List SyncSeg) (buf : List ℚ),
        (ss.foldl (fun b s => writeFrom b ⌊s.start * 22050⌋ (resampleTo 22050 s)) buf).length
          = buf.length := by
      intro ss
      induction ss with
      | nil => intro buf; rfl
      | cons s rest ih => intro buf; rw [List.foldl_cons, ih, writeFrom_length]
    simpa using hfold segs (List.replicate (⌊T * 22050⌋).toNat 0)
  · intro buf st l
    induction l generalizing buf st with
    | nil =>
      intro i
      have hc : ¬(st ≤ (i : ℤ) ∧ (i : ℤ) < st + ([] : List ℚ).length ∧ i < buf.length) := by
        simp only [List.length_nil]
        omega
      rw [writeFrom, if_neg hc]
    | cons v rest ih =>
      intro i
      rw [writeFrom, ih]
      have hlen : (writeAt buf st v).length = buf.length := writeAt_length buf st v
      by_cases h1 : st + 1 ≤ (i : ℤ) ∧ (i : ℤ) < st + 1 + rest.length ∧ i < buf.length
      · rw [if_pos (by rw [hlen]; exact h1)]
        have h2 : st ≤ (i : ℤ) ∧ (i : ℤ) < st + ((v :: rest).length : ℤ) ∧ i < buf.length := by
          simp only [List.length_cons]
          push_cast
          omega
        rw [if_pos h2]
        have hk : ((i : ℤ) - st).toNat = ((i : ℤ) - (st + 1)).toNat + 1 := by omega
        rw [hk, List.getD_cons_succ]
      · rw [if_neg (by rw [hlen]; exact h1)]
        by_cases h2 : st ≤ (i : ℤ) ∧ (i : ℤ) < st + ((v :: rest).length : ℤ) ∧ i < buf.length
        · rw [if_pos h2]
          have hieq : (i : ℤ) = st := by
            simp only [List.length_cons] at h2
            push_cast at h2
            omega
          have hk0 : ((i : ℤ) - st).toNat = 0 := by omega
          rw [hk0, List.getD_cons_zero]
          rw [writeAt, if_pos ⟨by omega, by omega⟩]
          have hst : st.toNat = i := by omega
          rw [hst, List.getD_eq_getElem?_getD, List.getElem?_set_self', List.getElem?_eq_getElem h2.2.2]
          rfl
        · rw [if_neg h2]
          rw [writeAt]
          split
          · next hg =>
            have hne : st.toNat ≠ i := by
              intro he
              exact h2 ⟨by omega, by simp only [List.length_cons]; push_cast; omega, by omega⟩
            rw [List.getD_eq_getElem?_getD, List.getElem?_set_ne hne, ← List.getD_eq_getElem?_getD]
          · rfl
  · intro segs seg T
    simp [combine_with_timing, List.foldl_append]

/-- C5 witness: the amended theorem at concrete inputs — a 5-sample buffer
for `T = 1/4410 s`, and a concrete in-bounds write. -/
theorem combine_with_timing_spec_witness :
    (0 ≤ (1 / 4410 : ℚ)
      ∧ (combine_with_timing [{ start := 0, rate := 22050, samples := [1 / 2] }]
          (1 / 4410)).length = (⌊(1 / 4410 : ℚ) * 22050⌋).toNat)
    ∧ (writeFrom [0, 0, 0] 1 [5, 6]).getD 1 0 = 5 := by
  constructor
  · exact ⟨by norm_num,
      combine_with_timing_spec.1 [{ start := 0, rate := 22050, samples := [1 / 2] }]
        (1 / 4410) (by norm_num)⟩
  · rw [combine_with_timing_spec.2.1 [0, 0, 0] 1 [5, 6] 1,
      if_pos (by refine ⟨by norm_num, by norm_num, by norm_num⟩)]
    rfl

/-! ### C6: atomic queue reorder -/

/-- A found job row carries the looked-up id. -/
theorem lookupJob_id {jobs : List QJob} {jid : String} {j : QJob}
    (h : lookupJob jobs jid = some j) : j.id = jid := by
  have := List.find?_some h
  simpa using this

/-- The positional update preserves the row id. -/
theorem reorderUpd_id (j : QJob) (p : ℕ) : (reorderUpd j p).id = j.id := rfl

/-- Lookup through one pass of the positional-update map: the listed id's
row is updated, all other lookups are untouched. -/
theorem lookupJob_map_upd (jobs : List QJob) (jid : String) (p : ℕ) (q : String) :
    lookupJob (jobs.map (fun j => if j.id = jid then reorderUpd j p else j)) q
      = if q = jid then (lookupJob jobs q).map (fun j => reorderUpd j p)
        else lookupJob jobs q := by
  induction jobs with
  | nil => simp [lookupJob]
  | cons j rest ih =>
    simp only [lookupJob, List.map_cons, List.find?_cons] at ih ⊢
    by_cases hjj : j.id = jid
    · by_cases hjq : j.id = q
      · simp [hjj, hjq, reorderUpd, ← hjq, hjj ▸ hjq.symm]
      · have hq : ¬q = jid := fun hc => hjq (by rw [hjj, hc])
        have hupd : ¬((reorderUpd j p).id == q) = true := by simp [reorderUpd, hjq]
        have hb : (jid == q) = false := by
          simp only [beq_eq_false_iff_ne, ne_eq]
          exact fun hc => hq hc.symm
        simp [hjj, hjq, hq, hupd, ih, hb]
    · by_cases hjq : j.id = q
      · have hq : ¬q = jid := fun hc => hjj (by rw [hjq, hc])
        simp [hjj, hjq, hq]
      · have hb : (j.id == q) = false := by simp [hjq]
        simp [hjj, hb, ih]

/-- Ids not in the reorder list are never touched by the update loop. -/
theorem applyReorder_not_mem (ids : List String) :
    ∀ (jobs : List QJob) (k : ℕ) (q : String), q ∉ ids →
      lookupJob (applyReorder jobs ids k) q = lookupJob jobs q := by
  induction ids with
  | nil => intro jobs k q _; rfl
  | cons jid rest ih =>
    intro jobs k q hq
    have hq1 : ¬q = jid := fun hc => hq (by rw [hc]; exact List.mem_cons_self jid rest)
    have hq2 : q ∉ rest := fun hc => hq (List.mem_cons.mpr (Or.inr hc))
    rw [applyReorder, ih _ _ _ hq2, lookupJob_map_upd, if_neg hq1]

/-- The update loop writes exactly the positional update to the row of the
id at each position (ids assumed distinct, as the atomicity scenario has
them). -/
theorem applyReorder_get (ids : List String) :
    ∀ (jobs : List QJob) (k : ℕ), ids.Nodup →
      ∀ (p : ℕ) (hp : p < ids.length),
        lookupJob (applyReorder jobs ids k) (ids.get ⟨p, hp⟩)
          = (lookupJob jobs (ids.get ⟨p, hp⟩)).map (fun j => reorderUpd j (k + p)) := by
  induction ids with
  | nil => intro jobs k _ p hp; exact absurd hp (by simp)
  | cons jid rest ih =>
    intro jobs k hnd p hp
    have hjid : jid ∉ rest := (List.nodup_cons.mp hnd).1
    match p with
    | 0 =>
      show lookupJob (applyReorder _ rest (k + 1)) jid
        = (lookupJob jobs jid).map (fun j => reorderUpd j (k + 0))
      rw [applyReorder_not_mem rest _ _ _ hjid, lookupJob_map_upd, if_pos rfl]
      rfl
    | p' + 1 =>
      have hp2 : p' < rest.length := by
        simp only [List.length_cons] at hp
        omega
      show lookupJob (applyReorder _ rest (k + 1)) (rest.get ⟨p', hp2⟩)
        = (lookupJob jobs (rest.get ⟨p', hp2⟩)).map (fun j => reorderUpd j (k + (p' + 1)))
      have hmem : rest.get ⟨p', hp2⟩ ∈ rest := List.get_mem rest p' hp2
      have hne : ¬rest.get ⟨p', hp2⟩ = jid := fun hc => hjid (hc ▸ hmem)
      rw [ih _ (k + 1) (List.nodup_cons.mp hnd).2 p' hp2,
        lookupJob_map_upd, if_neg hne]
      have : k + 1 + p' = k + (p' + 1) := by omega
      rw [this]

/-- The verification loop passes exactly when every listed id resolves to
a row in a reorderable status. -/
theorem validateReorderIds_none_iff (jobs : List QJob) (ids : List String) :
    validateReorderIds jobs ids = none ↔
      ∀ jid ∈ ids, ∃ j, lookupJob jobs jid = some j
        ∧ (j.status = JStatus.pending ∨ j.status = JStatus.queued) := by
  induction ids with
  | nil => simp [validateReorderIds]
  | cons jid rest ih =>
    rw [validateReorderIds]
    cases hl : lookupJob jobs jid with
    | none =>
      simp only [List.mem_cons]
      constructor
      · intro hc; exact absurd hc (by simp)
      · intro hall
        obtain ⟨j, hj, _⟩ := hall jid (Or.inl rfl)
        rw [hl] at hj
        exact absurd hj (by simp)
    | some j =>
      show (if j.status = JStatus.pending ∨ j.status = JStatus.queued
          then validateReorderIds jobs rest
          else some ("Job " ++ jid ++ " is not in a reorderable state")) = none ↔ _
      by_cases hs : j.status = JStatus.pending ∨ j.status = JStatus.queued
      · rw [if_pos hs, ih]
        constructor
        · intro hall jid' hj'
          rcases List.mem_cons.mp hj' with h | h
          · exact h ▸ ⟨j, hl, hs⟩
          · exact hall jid' h
        · intro hall jid' hj'
          exact hall jid' (List.mem_cons.mpr (Or.inr hj'))
      · rw [if_neg hs]
        constructor
        · intro hc; exact absurd hc (by simp)
        · intro hall
          obtain ⟨j', hj', hs'⟩ := hall jid (List.mem_cons.mpr (Or.inl rfl))
          rw [hl] at hj'
          cases hj'
          exact (hs hs').elim

/-- C6: when every listed job exists in a reorderable status (`queued` or
`pending`), the reorder succeeds and writes, to the job at 1-based
position `p + 1`, `priority = min(p + 1, 10)` and `queue_position = p + 1`;
when any listed job is missing or non-reorderable, the whole call fails
and the persisted rows are untouched.  Confirms the claim. -/
theorem batch_reorder_queue_spec (jobs : List QJob) (ids : List String) :
    ((∀ jid ∈ ids, ∃ j, lookupJob jobs jid = some j
        ∧ (j.status = JStatus.pending ∨ j.status = JStatus.queued)) →
      ids ≠ [] → ids.Nodup →
      ∃ jobs', batch_reorder_queue jobs ids = Except.ok jobs'
        ∧ ∀ (p : ℕ) (hp : p < ids.length) (j : QJob),
            lookupJob jobs (ids.get ⟨p, hp⟩) = some j →
            lookupJob jobs' (ids.get ⟨p, hp⟩)
              = some { j with priority := min ((p : ℤ) + 1) 10,
                              queue_position := (p : ℤ) + 1 })
    ∧ ((∃ jid ∈ ids, lookupJob jobs jid = none
          ∨ ∃ j, lookupJob jobs jid = some j
              ∧ ¬(j.status = JStatus.pending ∨ j.status = JStatus.queued)) →
      (∃ e, batch_reorder_queue jobs ids = Except.error e)
        ∧ reorderOutcome jobs ids = jobs) := by
  constructor
  · intro hval hne hnd
    have hv : validateReorderIds jobs ids = none :=
      (validateReorderIds_none_iff jobs ids).mpr hval
    have hemp : ids.isEmpty = false := by
      cases ids with
      | nil => exact absurd rfl hne
      | cons a l => rfl
    refine ⟨applyReorder jobs ids 0, ?_, ?_⟩
    · simp [batch_reorder_queue, hemp, hv]
    · intro p hp j hj
      rw [applyReorder_get ids jobs 0 hnd p hp, hj]
      have h0 : 0 + p = p := by omega
      rw [h0]
      rfl
  · intro hbad
    have hv : ¬validateReorderIds jobs ids = none := by
      rw [validateReorderIds_none_iff]
      intro hall
      obtain ⟨jid, hjid, hb⟩ := hbad
      obtain ⟨j, hj, hs⟩ := hall jid hjid
      rcases hb with hb | ⟨j', hj', hs'⟩
      · rw [hb] at hj; exact absurd hj (by simp)
      · rw [hj] at hj'
        cases hj'
        exact hs' hs
    have hemp : ids.isEmpty = false := by
      obtain ⟨jid, hjid, _⟩ := hbad
      cases ids with
      | nil => exact absurd hjid (by simp)
      | cons a l => rfl
    cases he : validateReorderIds jobs ids with
    | none => exact absurd he hv
    | some e =>
      constructor
      · exact ⟨e, by simp [batch_reorder_queue, hemp, he]⟩
      · simp [reorderOutcome, batch_reorder_queue, hemp, he]

/-- C6 witness: a two-job store, both reorderable; the reorder succeeds
and the first listed job gets priority 1 and position 1. -/
theorem batch_reorder_queue_spec_witness :
    ∃ jobs', batch_reorder_queue
        [{ id := "a", status := JStatus.queued, priority := 5, queue_position := 1 },
         { id := "c", status := JStatus.pending, priority := 5, queue_position := 2 }]
        ["c", "a"] = Except.ok jobs'
      ∧ lookupJob jobs' "c"
          = some { id := "c", status := JStatus.pending,
                   priority := min ((0 : ℤ) + 1) 10, queue_position := (0 : ℤ) + 1 } := by
  have h := (batch_reorder_queue_spec
      [{ id := "a", status := JStatus.queued, priority := 5, queue_position := 1 },
       { id := "c", status := JStatus.pending, priority := 5, queue_position := 2 }]
      ["c", "a"]).1
  obtain ⟨jobs', hok, hget⟩ := h
    (by
      intro jid hjid
      rcases List.mem_cons.mp hjid with h1 | h1
      · subst h1
        exact ⟨{ id := "c", status := JStatus.pending, priority := 5, queue_position := 2 },
          by decide, Or.inl rfl⟩
      · rcases List.mem_cons.mp h1 with h2 | h2
        · subst h2
          exact ⟨{ id := "a", status := JStatus.queued, priority := 5, queue_position := 1 },
            by decide, Or.inr rfl⟩
        · exact absurd h2 (by simp))
    (by simp) (by decide)
  refine ⟨jobs', hok, ?_⟩
  have := hget 0 (by decide)
    { id := "c", status := JStatus.pending, priority := 5, queue_position := 2 } (by decide)
  exact this

/-! ### C2: progress/status invariant and terminal stability -/

/-- Auxiliary invariant carried through reachability: `progress = 100` iff
`completed`, and any not-yet-completed job sits at progress 0 or 55. -/
theorem jobReachable_invariant :
    ∀ o, JobReachable o → ∀ j : JobState, o = some j →
      (j.progress = 100 ↔ j.status = JStatus.completed)
      ∧ (¬j.status = JStatus.completed → j.progress ≤ 55) := by
  intro o h
  induction h with
  | init => intro j hj; exact absurd hj (by simp)
  | step _ hs ih =>
    intro j hj
    cases hs with
    | create =>
      cases hj
      refine ⟨⟨by norm_num, by simp⟩, fun _ => by norm_num⟩
    | startProcessing j0 h0 =>
      cases hj
      obtain ⟨ih1, ih2⟩ := ih j0 rfl
      refine ⟨⟨fun hp => ?_, fun hs => by exact absurd hs (by simp)⟩, fun _ => ?_⟩
      · have := ih2 (by rw [h0]; simp)
        linarith
      · exact ih2 (by rw [h0]; simp)
    | beginTranscribe j0 h0 =>
      cases hj
      obtain ⟨ih1, ih2⟩ := ih j0 rfl
      refine ⟨⟨fun hp => ?_, fun hs => by exact absurd hs (by simp)⟩, fun _ => ?_⟩
      · have := ih2 (by rw [h0]; simp)
        linarith
      · exact ih2 (by rw [h0]; simp)
    | transcriptionSaved j0 h0 =>
      cases hj
      refine ⟨⟨fun hp => ?_, fun hs => ?_⟩, fun _ => by norm_num⟩
      · exact absurd hp (by norm_num)
      · exact absurd hs (by rw [h0]; simp)
    | beginDiarize j0 h0 =>
      cases hj
      obtain ⟨ih1, ih2⟩ := ih j0 rfl
      refine ⟨⟨fun hp => ?_, fun hs => by exact absurd hs (by simp)⟩, fun _ => ?_⟩
      · have := ih2 (by rw [h0]; simp)
        linarith
      · exact ih2 (by rw [h0]; simp)
    | beginSynthesize j0 h0 =>
      cases hj
      obtain ⟨ih1, ih2⟩ := ih j0 rfl
      have hnc : ¬j0.status = JStatus.completed := by
        rcases h0 with h | h <;> rw [h] <;> simp
      refine ⟨⟨fun hp => ?_, fun hs => by exact absurd hs (by simp)⟩, fun _ => ?_⟩
      · have := ih2 hnc
        linarith
      · exact ih2 hnc
    | complete j0 h0 =>
      cases hj
      exact ⟨⟨fun _ => rfl, fun _ => rfl⟩, fun hc => absurd rfl hc⟩
    | fail j0 e h0 =>
      cases hj
      obtain ⟨ih1, ih2⟩ := ih j0 rfl
      have hnc : ¬j0.status = JStatus.completed := by
        rcases h0 with h | h | h | h <;> rw [h] <;> simp
      refine ⟨⟨fun hp => ?_, fun hs => by exact absurd hs (by simp)⟩, fun _ => ?_⟩
      · have := ih2 hnc
        linarith
      · exact ih2 hnc
    | deleteJob j0 => exact absurd hj (by simp)

/-- C2: in every reachable job state, `progress = 100` iff the status is
`completed`; and no persisted mutation moves a job out of a terminal
status (the row can only be deleted).  Confirms the claim. -/
theorem job_lifecycle_invariants :
    (∀ j : JobState, JobReachable (some j) →
      (j.progress = 100 ↔ j.status = JStatus.completed))
    ∧ (∀ (j j' : JobState), JobStep (some j) (some j') →
      j.status.isTerminal = true → j'.status = j.status) := by
  constructor
  · intro j hr
    exact (jobReachable_invariant (some j) hr j rfl).1
  · intro j j' hs ht
    cases hs with
    | startProcessing _ h0 => rw [h0] at ht; exact absurd ht (by simp [JStatus.isTerminal])
    | beginTranscribe _ h0 => rw [h0] at ht; exact absurd ht (by simp [JStatus.isTerminal])
    | transcriptionSaved _ h0 => rfl
    | beginDiarize _ h0 => rw [h0] at ht; exact absurd ht (by simp [JStatus.isTerminal])
    | beginSynthesize _ h0 =>
      rcases h0 with h | h <;> rw [h] at ht <;> exact absurd ht (by simp [JStatus.isTerminal])
    | complete _ h0 =>
      rcases h0 with h | h | h <;> rw [h] at ht <;> exact absurd ht (by simp [JStatus.isTerminal])
    | fail _ e h0 =>
      rcases h0 with h | h | h | h <;> rw [h] at ht <;> exact absurd ht (by simp [JStatus.isTerminal])

/-- C2 witness: a job driven to `completed` through the full chain of
persisted mutations satisfies the invariant, with progress 100. -/
theorem job_lifecycle_invariants_witness :
    JobReachable (some { status := JStatus.completed, progress := 100,
                         error_message := none, started := true })
    ∧ ((100 : ℚ) = 100 ↔ (JStatus.completed = JStatus.completed)) := by
  have h1 : JobReachable (some { status := JStatus.queued, progress := 0,
                                 error_message := none, started := false }) :=
    JobReachable.step JobReachable.init JobStep.create
  have h2 : JobReachable (some { status := JStatus.processing, progress := 0,
                                 error_message := none, started := true }) :=
    JobReachable.step h1 (JobStep.startProcessing _ rfl)
  have h3 : JobReachable (some { status := JStatus.transcribing, progress := 0,
                                 error_message := none, started := true }) :=
    JobReachable.step h2 (JobStep.beginTranscribe _ rfl)
  have h4 : JobReachable (some { status := JStatus.transcribing, progress := 55,
                                 error_message := none, started := true }) :=
    JobReachable.step h3 (JobStep.transcriptionSaved _ rfl)
  have h5 : JobReachable (some { status := JStatus.completed, progress := 100,
                                 error_message := none, started := true }) :=
    JobReachable.step h4 (JobStep.complete _ (Or.inl rfl))
  exact ⟨h5, job_lifecycle_invariants.1 _ h5⟩

/-! ### C3: stage failure handling -/

set_option maxRecDepth 8000 in
/-- C3 counterexample: in `envEngineFail` the Diarize stage's engine call
raises, yet the job completes with no error message, no failure event is
published, and the later Synthesize stage IS attempted —
`run_diarization` swallows the engine exception instead of failing the
job. -/
theorem stage_failure_counterexample :
    envEngineFail.diarResult = Except.error "CUDA out of memory"
    ∧ (process_job_async envEngineFail jobStart).job.status = JStatus.completed
    ∧ (process_job_async envEngineFail jobStart).job.error_message = none
    ∧ (∃ ev ∈ (process_job_async envEngineFail jobStart).events,
        ev.stage = "generating_tts")
    ∧ ¬(∃ ev ∈ (process_job_async envEngineFail jobStart).events,
        ev.stage = "failed")
    ∧ (process_job_async envEngineFail jobStart).job.status ≠ JStatus.failed := by
  refine ⟨rfl, rfl, rfl, ?_, ?_, by decide⟩
  · exact ⟨⟨80, "generating_tts", "Synthesizing speech..."⟩, by decide⟩
  · decide

/-- C3 amended: an exception that actually propagates out of a stage —
which in this executor only the Transcribe stage produces — marks the job
`failed` with the exception text as `error_message`, publishes the failure
event last, and attempts no later stage; but the Diarize and Synthesize
stages catch their engine exceptions internally (broadcasting a notice
instead), so whenever transcription succeeds the run always ends
`completed` regardless of those stages' engine failures. -/
theorem stage_failure_handling (env : PipelineEnv) (j0 : JobState) :
    (∀ e, run_transcription env = Except.error e →
      (process_job_async env j0).job.status = JStatus.failed
      ∧ (process_job_async env j0).job.error_message = some e
      ∧ (process_job_async env j0).events.getLast? = some ⟨0, "failed", e⟩
      ∧ (process_job_async env j0).transcript = none
      ∧ ∀ ev ∈ (process_job_async env j0).events,
          ev.stage = "processing" ∨ ev.stage = "transcribing" ∨ ev.stage = "failed")
    ∧ (∀ tr evs, run_transcription env = Except.ok (tr, evs) →
      (process_job_async env j0).job.status = JStatus.completed
      ∧ (process_job_async env j0).job.progress = 100
      ∧ (process_job_async env j0).job.error_message = j0.error_message) := by
  constructor
  · intro e he
    have hred : process_job_async env j0 =
        { job := { j0 with status := JStatus.failed,
                           started := true,
                           error_message := some e },
          transcript := none,
          events := [⟨0, "processing", "Starting job..."⟩,
                     ⟨5, "transcribing", "Transcribing audio..."⟩,
                     ⟨0, "failed", e⟩] } := by
      simp [process_job_async, he]
    rw [hred]
    refine ⟨rfl, rfl, rfl, rfl, ?_⟩
    intro ev hev
    simp only [List.mem_cons, List.not_mem_nil, or_false] at hev
    rcases hev with h | h | h <;> subst h
    · exact Or.inl rfl
    · exact Or.inr (Or.inl rfl)
    · exact Or.inr (Or.inr rfl)
  · intro tr evs he
    simp only [process_job_async, he]
    by_cases hd : env.enable_diarization <;> by_cases ht : env.enable_tts <;>
      simp [hd, ht]

/-- C3 witness: the amended theorem applied to the run whose STT model is
missing: the job fails with the resolution error and no stage events
beyond transcribing are published. -/
theorem stage_failure_handling_witness :
    run_transcription envFail =
      Except.error "No STT model available. Please register and download a model first."
    ∧ (process_job_async envFail jobStart).job.status = JStatus.failed
    ∧ (process_job_async envFail jobStart).transcript = none := by
  have h := (stage_failure_handling envFail jobStart).1
    "No STT model available. Please register and download a model first." rfl
  exact ⟨rfl, h.1, h.2.2.2.1⟩

/-! ### C4: progress monotonicity -/

/-- Joining two non-decreasing runs across a pivot value keeps the whole
list non-decreasing. -/
theorem chain'_le_append_pivot (l1 l2 : List ℚ) (c : ℚ)
    (h1 : List.Chain' (fun a b => a ≤ b) l1)
    (h2 : List.Chain' (fun a b => a ≤ b) l2)
    (hb1 : ∀ x ∈ l1, x ≤ c) (hb2 : ∀ y ∈ l2, c ≤ y) :
    List.Chain' (fun a b => a ≤ b) (l1 ++ l2) := by
  rw [List.chain'_append]
  refine ⟨h1, h2, ?_⟩
  intro x hx y hy
  obtain ⟨hne, rfl⟩ := List.mem_getLast?_eq_getLast hx
  have hxm : l1.getLast hne ∈ l1 := List.getLast_mem hne
  have hym : y ∈ l2 := List.mem_of_mem_head? hy
  exact le_trans (hb1 _ hxm) (hb2 _ hym)

/-- The transcription-progress callbacks emit values in `[10, 60]`, and in
non-decreasing order whenever the adapter's segment end times are
non-decreasing. -/
theorem sttEvents_props (segs : List TransSeg) (info : SttInfo)
    (hpos : ∀ s ∈ segs, 0 ≤ s.stop) (hdur : 0 ≤ info.duration) :
    (∀ x ∈ (sttProgressEvents segs info).map (fun ev => ev.progress),
      10 ≤ x ∧ x ≤ 60)
    ∧ (List.Chain' (fun a b => a ≤ b) (segs.map (fun s => s.stop)) →
      List.Chain' (fun a b => a ≤ b)
        ((sttProgressEvents segs info).map (fun ev => ev.progress))) := by
  have hd1 : 0 < or1 info.duration := by
    rw [or1]
    split
    · norm_num
    · next hne => exact lt_of_le_of_ne hdur (fun hc => hne hc.symm)
  have hmapeq : (sttProgressEvents segs info).map (fun ev => ev.progress)
      = segs.map (fun s => 10 + min (s.stop / or1 info.duration * 100) 100 * (1 / 2)) := by
    rw [sttProgressEvents, List.map_map]
    rfl
  rw [hmapeq]
  constructor
  · intro x hx
    obtain ⟨s, hs, rfl⟩ := List.mem_map.mp hx
    have hp0 : 0 ≤ min (s.stop / or1 info.duration * 100) 100 := by
      refine le_min ?_ (by norm_num)
      have := hpos s hs
      positivity
    have hp100 : min (s.stop / or1 info.duration * 100) 100 ≤ 100 := min_le_right _ _
    constructor <;> linarith
  · intro hmono
    rw [List.chain'_map] at hmono ⊢
    refine hmono.imp ?_
    intro a b hab
    have hdiv : a.stop / or1 info.duration ≤ b.stop / or1 info.duration :=
      (div_le_div_iff_of_pos_right hd1).mpr hab
    have hmin : min (a.stop / or1 info.duration * 100) 100
        ≤ min (b.stop / or1 info.duration * 100) 100 :=
      min_le_min (by nlinarith) le_rfl
    linarith

/-- The four possible progress shapes of `run_diarization`'s event list. -/
theorem run_diarization_progress_cases (env : PipelineEnv) (tr : TranscriptRec) :
    (run_diarization env tr).2.map (fun ev => ev.progress) = [75]
    ∨ (run_diarization env tr).2.map (fun ev => ev.progress) = [62, 75]
    ∨ (run_diarization env tr).2.map (fun ev => ev.progress) = [62, 70, 75] := by
  rw [run_diarization]
  rcases env.diarModel with _ | ⟨mname, mdl⟩
  · left; rfl
  · cases mdl
    · left; rfl
    · rcases env.diarResult with e | diar
      · right; left; rfl
      · right; right; rfl

/-- The four possible progress shapes of `run_tts`'s event list. -/
theorem run_tts_progress_cases (env : PipelineEnv) (otr : Option TranscriptRec) :
    (run_tts env otr).map (fun ev => ev.progress) = [95]
    ∨ (run_tts env otr).map (fun ev => ev.progress) = [82, 95]
    ∨ (run_tts env otr).map (fun ev => ev.progress) = [82, 85, 95]
    ∨ (run_tts env otr).map (fun ev => ev.progress) = [82, 85, 92, 95] := by
  rw [run_tts]
  rcases env.ttsModel with _ | ⟨mname, mdl⟩
  · left; rfl
  · cases mdl
    · left; rfl
    · rcases otr with _ | tr
      · right; left; rfl
      · rcases env.ttsResult with e | u
        · right; right; left; rfl
        · right; right; right; rfl

/-- The Diarize block (the 60 broadcast plus `run_diarization`'s events)
is non-decreasing and confined to `[60, 75]`, in every engine outcome. -/
theorem diarEvents_props (env : PipelineEnv) (tr : TranscriptRec) :
    List.Chain' (fun a b => a ≤ b)
      (((⟨60, "diarizing", "Identifying speakers..."⟩ : Event)
          :: (run_diarization env tr).2).map (fun ev => ev.progress))
    ∧ ∀ x ∈ (((⟨60, "diarizing", "Identifying speakers..."⟩ : Event)
          :: (run_diarization env tr).2).map (fun ev => ev.progress)),
        60 ≤ x ∧ x ≤ 75 := by
  rw [List.map_cons]
  rcases run_diarization_progress_cases env tr with h | h | h <;> rw [h] <;>
    constructor <;>
    simp [List.chain'_cons] <;> norm_num

/-- The Synthesize block (the 80 broadcast plus `run_tts`'s events) is
non-decreasing and confined to `[80, 95]`, in every engine outcome. -/
theorem ttsEvents_props (env : PipelineEnv) (otr : Option TranscriptRec) :
    List.Chain' (fun a b => a ≤ b)
      (((⟨80, "generating_tts", "Synthesizing speech..."⟩ : Event)
          :: run_tts env otr).map (fun ev => ev.progress))
    ∧ ∀ x ∈ (((⟨80, "generating_tts", "Synthesizing speech..."⟩ : Event)
          :: run_tts env otr).map (fun ev => ev.progress)),
        80 ≤ x ∧ x ≤ 95 := by
  rw [List.map_cons]
  rcases run_tts_progress_cases env otr with h | h | h | h <;> rw [h] <;>
    constructor <;>
    simp [List.chain'_cons] <;> norm_num

/-- Pairwise-ordering version of the pivot join. -/
theorem pairwise_le_append_pivot (l1 l2 : List ℚ) (c : ℚ)
    (h1 : List.Pairwise (fun a b => a ≤ b) l1)
    (h2 : List.Pairwise (fun a b => a ≤ b) l2)
    (hb1 : ∀ x ∈ l1, x ≤ c) (hb2 : ∀ y ∈ l2, c ≤ y) :
    List.Pairwise (fun a b => a ≤ b) (l1 ++ l2) := by
  rw [List.pairwise_append]
  exact ⟨h1, h2, fun a ha b hb => le_trans (hb1 a ha) (hb2 b hb)⟩

/-- C4 counterexample: a job whose STT model is missing publishes the
progress values `[0, 5, 0]` — the final failure event carries progress 0,
so the published sequence strictly decreases. -/
theorem progress_monotonic_counterexample :
    progressTrace envFail jobStart = [0, 5, 0]
    ∧ ¬List.Chain' (fun a b => a ≤ b) (progressTrace envFail jobStart) := by
  have h : progressTrace envFail jobStart = [0, 5, 0] := rfl
  refine ⟨h, ?_⟩
  rw [h]
  intro hc
  have := List.chain'_cons.mp (List.chain'_cons.mp hc).2
  norm_num at this

/-- C4 amended: whenever transcription succeeds — with the STT adapter
reporting segments in non-decreasing end-time order, non-negative times and
duration — the published progress sequence is non-decreasing through
completion; but when a stage raises, the run publishes exactly
`[0, 5, 0]`: the failure event carries progress 0 and the sequence
decreases. -/
theorem progress_monotonic_amended (env : PipelineEnv) (j0 : JobState) :
    (∀ (m : MRec) (segs : List TransSeg) (info : SttInfo),
      env.sttModel = some m → m.is_downloaded = true →
      env.sttResult = Except.ok (segs, info) →
      List.Chain' (fun a b => a ≤ b) (segs.map (fun s => s.stop)) →
      (∀ s ∈ segs, 0 ≤ s.stop) → 0 ≤ info.duration →
      List.Chain' (fun a b => a ≤ b) (progressTrace env j0))
    ∧ (∀ e, run_transcription env = Except.error e →
      progressTrace env j0 = [0, 5, 0]) := by
  constructor
  · intro m segs info hm hdl hstt hmono hpos hdur
    have hrun : run_transcription env
        = Except.ok (mkTranscript segs info, sttProgressEvents segs info) := by
      rw [run_transcription, hm, hstt]
      simp [hdl]
    obtain ⟨hBbound, hBchainf⟩ := sttEvents_props segs info hpos hdur
    have hBpair : List.Pairwise (fun a b => a ≤ b)
        ((sttProgressEvents segs info).map (fun ev => ev.progress)) :=
      List.chain'_iff_pairwise.mp (hBchainf hmono)
    rw [List.chain'_iff_pairwise]
    have h05 : List.Pairwise (fun a b : ℚ => a ≤ b) [0, 5] := by norm_num
    have hsingle : ∀ c : ℚ, List.Pairwise (fun a b : ℚ => a ≤ b) [c] :=
      fun c => List.pairwise_singleton _ _
    by_cases hd : env.enable_diarization = true <;> by_cases ht : env.enable_tts = true
    · -- diarization and TTS both enabled
      obtain ⟨hDchain, hDbound⟩ := diarEvents_props env (mkTranscript segs info)
      obtain ⟨hTchain, hTbound⟩ := ttsEvents_props env
        (some (run_diarization env (mkTranscript segs info)).1)
      have hDpair := List.chain'_iff_pairwise.mp hDchain
      have hTpair := List.chain'_iff_pairwise.mp hTchain
      have htrace : progressTrace env j0
          = [0, 5] ++ ((sttProgressEvents segs info).map (fun ev => ev.progress)
            ++ ((((⟨60, "diarizing", "Identifying speakers..."⟩ : Event)
                :: (run_diarization env (mkTranscript segs info)).2).map
                  (fun ev => ev.progress))
              ++ ((((⟨80, "generating_tts", "Synthesizing speech..."⟩ : Event)
                  :: run_tts env
                    (some (run_diarization env (mkTranscript segs info)).1)).map
                    (fun ev => ev.progress))
                ++ [100]))) := by
        simp [progressTrace, process_job_async, hrun, hd, ht, List.map_append,
          List.append_assoc]
      rw [htrace]
      have p4 := pairwise_le_append_pivot _ [100] 100 hTpair (hsingle 100)
        (fun x hx => le_trans (hTbound x hx).2 (by norm_num))
        (fun y hy => by simp at hy; rw [hy])
      have b4 : ∀ y ∈ (((⟨80, "generating_tts", "Synthesizing speech..."⟩ : Event)
          :: run_tts env (some (run_diarization env (mkTranscript segs info)).1)).map
            (fun ev => ev.progress)) ++ [100], (80 : ℚ) ≤ y := by
        intro y hy
        rcases List.mem_append.mp hy with h | h
        · exact (hTbound y h).1
        · simp at h; rw [h]; norm_num
      have p3 := pairwise_le_append_pivot _ _ 80 hDpair p4
        (fun x hx => le_trans (hDbound x hx).2 (by norm_num)) b4
      have b3 : ∀ y ∈ (((⟨60, "diarizing", "Identifying speakers..."⟩ : Event)
          :: (run_diarization env (mkTranscript segs info)).2).map (fun ev => ev.progress))
          ++ ((((⟨80, "generating_tts", "Synthesizing speech..."⟩ : Event)
            :: run_tts env (some (run_diarization env (mkTranscript segs info)).1)).map
              (fun ev => ev.progress)) ++ [100]), (60 : ℚ) ≤ y := by
        intro y hy
        rcases List.mem_append.mp hy with h | h
        · exact (hDbound y h).1
        · exact le_trans (by norm_num) (b4 y h)
      have p2 := pairwise_le_append_pivot _ _ 60 hBpair p3
        (fun x hx => (hBbound x hx).2) b3
      have b2 : ∀ y ∈ (sttProgressEvents segs info).map (fun ev => ev.progress)
          ++ ((((⟨60, "diarizing", "Identifying speakers..."⟩ : Event)
            :: (run_diarization env (mkTranscript segs info)).2).map (fun ev => ev.progress))
            ++ ((((⟨80, "generating_tts", "Synthesizing speech..."⟩ : Event)
              :: run_tts env (some (run_diarization env (mkTranscript segs info)).1)).map
                (fun ev => ev.progress)) ++ [100])), (10 : ℚ) ≤ y := by
        intro y hy
        rcases List.mem_append.mp hy with h | h
        · exact (hBbound y h).1
        · exact le_trans (by norm_num) (b3 y h)
      exact pairwise_le_append_pivot _ _ 10 h05 p2
        (fun x hx => by rcases List.mem_cons.mp hx with h | h
                        · rw [h]; norm_num
                        · simp at h; rw [h]; norm_num) b2
    · -- diarization only
      obtain ⟨hDchain, hDbound⟩ := diarEvents_props env (mkTranscript segs info)
      have hDpair := List.chain'_iff_pairwise.mp hDchain
      have htrace : progressTrace env j0
          = [0, 5] ++ ((sttProgressEvents segs info).map (fun ev => ev.progress)
            ++ ((((⟨60, "diarizing", "Identifying speakers..."⟩ : Event)
                :: (run_diarization env (mkTranscript segs info)).2).map
                  (fun ev => ev.progress)) ++ [100])) := by
        simp [progressTrace, process_job_async, hrun, hd, ht, List.map_append,
          List.append_assoc]
      rw [htrace]
      have p3 := pairwise_le_append_pivot _ [100] 100 hDpair (hsingle 100)
        (fun x hx => le_trans (hDbound x hx).2 (by norm_num))
        (fun y hy => by simp at hy; rw [hy])
      have b3 : ∀ y ∈ (((⟨60, "diarizing", "Identifying speakers..."⟩ : Event)
          :: (run_diarization env (mkTranscript segs info)).2).map (fun ev => ev.progress))
          ++ [100], (60 : ℚ) ≤ y := by
        intro y hy
        rcases List.mem_append.mp hy with h | h
        · exact (hDbound y h).1
        · simp at h; rw [h]; norm_num
      have p2 := pairwise_le_append_pivot _ _ 60 hBpair p3
        (fun x hx => (hBbound x hx).2) b3
      have b2 : ∀ y ∈ (sttProgressEvents segs info).map (fun ev => ev.progress)
          ++ ((((⟨60, "diarizing", "Identifying speakers..."⟩ : Event)
            :: (run_diarization env (mkTranscript segs info)).2).map (fun ev => ev.progress))
            ++ [100]), (10 : ℚ) ≤ y := by
        intro y hy
        rcases List.mem_append.mp hy with h | h
        · exact (hBbound y h).1
        · exact le_trans (by norm_num) (b3 y h)
      exact pairwise_le_append_pivot _ _ 10 h05 p2
        (fun x hx => by rcases List.mem_cons.mp hx with h | h
                        · rw [h]; norm_num
                        · simp at h; rw [h]; norm_num) b2
    · -- TTS only
      obtain ⟨hTchain, hTbound⟩ := ttsEvents_props env (some (mkTranscript segs info))
      have hTpair := List.chain'_iff_pairwise.mp hTchain
      have htrace : progressTrace env j0
          = [0, 5] ++ ((sttProgressEvents segs info).map (fun ev => ev.progress)
            ++ ((((⟨80, "generating_tts", "Synthesizing speech..."⟩ : Event)
                :: run_tts env (some (mkTranscript segs info))).map
                  (fun ev => ev.progress)) ++ [100])) := by
        simp [progressTrace, process_job_async, hrun, hd, ht, List.map_append,
          List.append_assoc]
      rw [htrace]
      have p3 := pairwise_le_append_pivot _ [100] 100 hTpair (hsingle 100)
        (fun x hx => le_trans (hTbound x hx).2 (by norm_num))
        (fun y hy => by simp at hy; rw [hy])
      have b3 : ∀ y ∈ (((⟨80, "generating_tts", "Synthesizing speech..."⟩ : Event)
          :: run_tts env (some (mkTranscript segs info))).map (fun ev => ev.progress))
          ++ [100], (80 : ℚ) ≤ y := by
        intro y hy
        rcases List.mem_append.mp hy with h | h
        · exact (hTbound y h).1
        · simp at h; rw [h]; norm_num
      have p2 := pairwise_le_append_pivot _ _ 80 hBpair p3
        (fun x hx => le_trans (hBbound x hx).2 (by norm_num)) b3
      have b2 : ∀ y ∈ (sttProgressEvents segs info).map (fun ev => ev.progress)
          ++ ((((⟨80, "generating_tts", "Synthesizing speech..."⟩ : Event)
            :: run_tts env (some (mkTranscript segs info))).map (fun ev => ev.progress))
            ++ [100]), (10 : ℚ) ≤ y := by
        intro y hy
        rcases List.mem_append.mp hy with h | h
        · exact (hBbound y h).1
        · exact le_trans (by norm_num) (b3 y h)
      exact pairwise_le_append_pivot _ _ 10 h05 p2
        (fun x hx => by rcases List.mem_cons.mp hx with h | h
                        · rw [h]; norm_num
                        · simp at h; rw [h]; norm_num) b2
    · -- transcription only
      have htrace : progressTrace env j0
          = [0, 5] ++ ((sttProgressEvents segs info).map (fun ev => ev.progress)
            ++ [100]) := by
        simp [progressTrace, process_job_async, hrun, hd, ht, List.map_append,
          List.append_assoc]
      rw [htrace]
      have p2 := pairwise_le_append_pivot _ [100] 100 hBpair (hsingle 100)
        (fun x hx => le_trans (hBbound x hx).2 (by norm_num))
        (fun y hy => by simp at hy; rw [hy])
      have b2 : ∀ y ∈ (sttProgressEvents segs info).map (fun ev => ev.progress)
          ++ [100], (10 : ℚ) ≤ y := by
        intro y hy
        rcases List.mem_append.mp hy with h | h
        · exact (hBbound y h).1
        · simp at h; rw [h]; norm_num
      exact pairwise_le_append_pivot _ _ 10 h05 p2
        (fun x hx => by rcases List.mem_cons.mp hx with h | h
                        · rw [h]; norm_num
                        · simp at h; rw [h]; norm_num) b2
  · intro e he
    simp [progressTrace, process_job_async, he]

/-- C4 witness: the amended theorem on the concrete full-featured run
(`envDiarFail`): its published progress sequence is non-decreasing. -/
theorem progress_monotonic_amended_witness :
    List.Chain' (fun a b => a ≤ b) (progressTrace envDiarFail jobStart) := by
  exact (progress_monotonic_amended envDiarFail jobStart).1
    { name := "base", is_downloaded := true }
    [{ start := 0, stop := 1, text := "hi there" }]
    { language := some "en", duration := 1 }
    rfl rfl rfl (by simp) (by intro s hs; simp at hs; rw [hs]; norm_num) (by norm_num)

/-! ### C1: diarization speaker assignment -/

/-- Overlap lengths are clamped at zero. -/
theorem overlapLen_nonneg (s e : ℚ) (d : DiarSeg) : 0 ≤ overlapLen s e d :=
  le_max_left 0 _

/-- Total overlaps are non-negative. -/
theorem totalOverlap_nonneg (s e : ℚ) (l : List DiarSeg) (sp : String) :
    0 ≤ totalOverlap s e l sp := by
  induction l with
  | nil => exact le_refl 0
  | cons g rest ih =>
    rw [totalOverlap]
    have h0 : (0 : ℚ) ≤ if g.speaker = sp then overlapLen s e g else 0 := by
      split
      · exact overlapLen_nonneg s e g
      · exact le_refl 0
    linarith

/-- A single interval's overlap is at most its speaker's total overlap. -/
theorem overlapLen_le_totalOverlap (s e : ℚ) (l : List DiarSeg) (g : DiarSeg)
    (hg : g ∈ l) : overlapLen s e g ≤ totalOverlap s e l g.speaker := by
  induction l with
  | nil => exact absurd hg (by simp)
  | cons g0 rest ih =>
    rw [totalOverlap]
    rcases List.mem_cons.mp hg with h | h
    · subst h
      rw [if_pos rfl]
      have := totalOverlap_nonneg s e rest g.speaker
      linarith
    · have h1 := ih h
      have h0 : (0 : ℚ) ≤ if g0.speaker = g.speaker then overlapLen s e g0 else 0 := by
        split
        · exact overlapLen_nonneg s e g0
        · exact le_refl 0
      linarith

/-- If every interval has zero overlap, every total overlap is zero. -/
theorem totalOverlap_eq_zero (s e : ℚ) (l : List DiarSeg)
    (h : ∀ g ∈ l, overlapLen s e g = 0) (q : String) :
    totalOverlap s e l q = 0 := by
  induction l with
  | nil => rfl
  | cons g rest ih =>
    rw [totalOverlap, ih (fun g' hg' => h g' (List.mem_cons.mpr (Or.inr hg')))]
    rw [h g (List.mem_cons.mpr (Or.inl rfl))]
    simp

/-- Value of a key after a dict write. -/
theorem lookupV_addTime (acc : List (String × ℚ)) (sp : String) (v : ℚ) (q : String) :
    lookupV (addTime acc sp v) q
      = if q = sp then lookupV acc q + v else lookupV acc q := by
  induction acc with
  | nil =>
    rw [addTime]
    by_cases hq : q = sp
    · subst hq; simp [lookupV]
    · have : ¬(sp == q) = true := by simpa using fun hc => hq hc.symm
      simp [lookupV, hq, this]
  | cons p rest ih =>
    obtain ⟨k, w⟩ := p
    rw [addTime]
    by_cases hk : k = sp
    · subst hk
      by_cases hq : q = k
      · subst hq; simp [lookupV]
      · have : ¬(k == q) = true := by simpa using fun hc => hq hc.symm
        simp [lookupV, List.find?_cons, this, hq]
    · rw [if_neg hk]
      by_cases hq : q = k
      · subst hq
        have hqs : ¬q = sp := fun hc => hk hc
        simp [lookupV, List.find?_cons, hqs]
      · have : ¬(k == q) = true := by simpa using fun hc => hq hc.symm
        simp only [lookupV, List.find?_cons, this, cond_false] at ih ⊢
        simpa [lookupV] using ih

/-- Keys after a dict write: an existing key keeps the key list, a new one
is appended. -/
theorem keys_addTime (acc : List (String × ℚ)) (sp : String) (v : ℚ) :
    (addTime acc sp v).map Prod.fst
      = if sp ∈ acc.map Prod.fst then acc.map Prod.fst
        else acc.map Prod.fst ++ [sp] := by
  induction acc with
  | nil => simp [addTime]
  | cons p rest ih =>
    obtain ⟨k, w⟩ := p
    rw [addTime]
    by_cases hk : k = sp
    · subst hk
      simp
    · rw [if_neg hk]
      have hne : ¬sp = k := fun hc => hk hc.symm
      by_cases hmem : sp ∈ rest.map Prod.fst
      · simp [hmem, hne, ih]
      · simp [hmem, hne, ih]

/-- The accumulated dict value of each speaker is its total overlap over
the processed intervals. -/
theorem lookupV_speakerTimesFrom (s e : ℚ) (l : List DiarSeg) :
    ∀ (acc : List (String × ℚ)) (q : String),
      lookupV (speakerTimesFrom s e l acc) q = lookupV acc q + totalOverlap s e l q := by
  induction l with
  | nil => intro acc q; rw [speakerTimesFrom, totalOverlap, add_zero]
  | cons g rest ih =>
    intro acc q
    rw [speakerTimesFrom, totalOverlap]
    by_cases hov : 0 < overlapLen s e g
    · rw [if_pos hov, ih, lookupV_addTime]
      by_cases hq : q = g.speaker
      · rw [if_pos hq, if_pos (hq ▸ rfl : g.speaker = q)]
        ring
      · rw [if_neg hq, if_neg (fun hc => hq hc.symm)]
        ring
    · rw [if_neg hov]
      have hz : overlapLen s e g = 0 :=
        le_antisymm (not_lt.mp hov) (overlapLen_nonneg s e g)
      rw [ih]
      split
      · rw [hz]; ring
      · ring

/-- The dict's key list is the speakers' first-positive-overlap order. -/
theorem keys_speakerTimesFrom (s e : ℚ) (l : List DiarSeg) :
    ∀ acc : List (String × ℚ),
      (speakerTimesFrom s e l acc).map Prod.fst = posOrder s e l (acc.map Prod.fst) := by
  induction l with
  | nil => intro acc; rfl
  | cons g rest ih =>
    intro acc
    rw [speakerTimesFrom, posOrder]
    by_cases hov : 0 < overlapLen s e g
    · rw [if_pos hov, if_pos hov, ih, keys_addTime]
    · rw [if_neg hov, if_neg hov, ih]

/-- Membership in the key order means positive total overlap (or prior
membership in the accumulator's keys). -/
theorem mem_posOrder (s e : ℚ) (l : List DiarSeg) :
    ∀ (ks : List String) (q : String),
      q ∈ posOrder s e l ks ↔ q ∈ ks ∨ 0 < totalOverlap s e l q := by
  induction l with
  | nil =>
    intro ks q
    rw [posOrder, totalOverlap]
    simp
  | cons g rest ih =>
    intro ks q
    rw [posOrder, totalOverlap]
    have hrest0 := totalOverlap_nonneg s e rest q
    by_cases hov : 0 < overlapLen s e g
    · rw [if_pos hov]
      by_cases hmem : g.speaker ∈ ks
      · rw [if_pos hmem, ih]
        by_cases hq : g.speaker = q
        · rw [if_pos hq]
          constructor
          · rintro (h | h)
            · exact Or.inl h
            · exact Or.inr (by linarith)
          · rintro (h | h)
            · exact Or.inl h
            · by_cases h2 : 0 < totalOverlap s e rest q
              · exact Or.inr h2
              · exact Or.inl (hq ▸ hmem)
        · rw [if_neg hq, zero_add]
      · rw [if_neg hmem, ih]
        by_cases hq : g.speaker = q
        · rw [if_pos hq]
          constructor
          · rintro (h | h)
            · rcases List.mem_append.mp h with h2 | h2
              · exact Or.inl h2
              · exact Or.inr (by linarith)
            · exact Or.inr (by linarith)
          · intro _
            by_cases h2 : q ∈ ks
            · exact Or.inl (List.mem_append.mpr (Or.inl h2))
            · exact Or.inl (List.mem_append.mpr (Or.inr (by simp [hq])))
        · rw [if_neg hq, zero_add]
          constructor
          · rintro (h | h)
            · rcases List.mem_append.mp h with h2 | h2
              · exact Or.inl h2
              · have h3 : q = g.speaker := by simpa using h2
                exact absurd h3.symm hq
            · exact Or.inr h
          · rintro (h | h)
            · exact Or.inl (List.mem_append.mpr (Or.inl h))
            · exact Or.inr h
    · rw [if_neg hov]
      have hz : overlapLen s e g = 0 :=
        le_antisymm (not_lt.mp hov) (overlapLen_nonneg s e g)
      rw [ih]
      by_cases hq : g.speaker = q
      · rw [if_pos hq, hz, zero_add]
      · rw [if_neg hq, zero_add]

/-- The key order never contains duplicates (starting from none). -/
theorem nodup_posOrder (s e : ℚ) (l : List DiarSeg) :
    ∀ ks : List String, ks.Nodup → (posOrder s e l ks).Nodup := by
  induction l with
  | nil => intro ks h; exact h
  | cons g rest ih =>
    intro ks h
    rw [posOrder]
    by_cases hov : 0 < overlapLen s e g
    · rw [if_pos hov]
      by_cases hmem : g.speaker ∈ ks
      · rw [if_pos hmem]; exact ih ks h
      · rw [if_neg hmem]
        refine ih _ ?_
        rw [List.nodup_append]
        exact ⟨h, List.nodup_singleton _, by simpa using hmem⟩
    · rw [if_neg hov]; exact ih ks h

/-- In a dict with distinct keys, membership determines the looked-up
value. -/
theorem lookupV_eq_of_mem :
    ∀ (acc : List (String × ℚ)), (acc.map Prod.fst).Nodup →
      ∀ (k : String) (v : ℚ), (k, v) ∈ acc → lookupV acc k = v := by
  intro acc
  induction acc with
  | nil => intro _ k v hv; exact absurd hv (by simp)
  | cons p rest ih =>
    intro hnd k v hv
    obtain ⟨k0, v0⟩ := p
    rw [List.map_cons, List.nodup_cons] at hnd
    rcases List.mem_cons.mp hv with h | h
    · cases h
      simp [lookupV, List.find?_cons]
    · have hk : ¬k0 = k := by
        intro hc
        subst hc
        exact hnd.1 (List.mem_map.mpr ⟨(k0, v), h, rfl⟩)
      have hb : ¬(k0 == k) = true := by simpa using hk
      simp only [lookupV, List.find?_cons, hb, cond_false]
      have := ih hnd.2 k v h
      simpa [lookupV] using this

/-- First-positive-overlap index: a matching head gives index 0. -/
theorem firstPosIdx_cons_self (s e : ℚ) (g : DiarSeg) (rest : List DiarSeg)
    (x : String) (hx : g.speaker = x) (hov : 0 < overlapLen s e g) :
    firstPosIdx s e (g :: rest) x = 0 := by
  rw [firstPosIdx, List.findIdx_cons]
  simp [hx, hov]

/-- First-positive-overlap index: a non-matching head shifts by one. -/
theorem firstPosIdx_cons_of_ne (s e : ℚ) (g : DiarSeg) (rest : List DiarSeg)
    (x : String) (hx : ¬(g.speaker = x ∧ 0 < overlapLen s e g)) :
    firstPosIdx s e (g :: rest) x = firstPosIdx s e rest x + 1 := by
  rw [firstPosIdx, firstPosIdx, List.findIdx_cons]
  have hp : (g.speaker == x && decide (0 < overlapLen s e g)) = false := by
    by_cases h1 : g.speaker = x
    · by_cases h2 : 0 < overlapLen s e g
      · exact absurd ⟨h1, h2⟩ hx
      · simp [h2]
    · simp [h1]
  rw [hp]
  rfl

/-- Relative order in the key list reflects first-positive-overlap order:
two keys both added by the loop (not already in the accumulator) appear in
the order of their first positive-overlap interval. -/
theorem posOrder_before (s e : ℚ) :
    ∀ (l : List DiarSeg) (ks : List String) (a b : String),
      listBefore (posOrder s e l ks) a b →
      listBefore ks a b ∨ (a ∈ ks ∧ b ∉ ks)
        ∨ (a ∉ ks ∧ b ∉ ks ∧ firstPosIdx s e l a < firstPosIdx s e l b) := by
  intro l
  induction l with
  | nil => intro ks a b h; exact Or.inl h
  | cons g rest ih =>
    intro ks a b h
    rw [posOrder] at h
    by_cases hov : 0 < overlapLen s e g
    · rw [if_pos hov] at h
      by_cases hks : g.speaker ∈ ks
      · rw [if_pos hks] at h
        rcases ih ks a b h with h1 | h1 | h1
        · exact Or.inl h1
        · exact Or.inr (Or.inl h1)
        · refine Or.inr (Or.inr ⟨h1.1, h1.2.1, ?_⟩)
          have hga : ¬(g.speaker = a ∧ 0 < overlapLen s e g) :=
            fun hc => h1.1 (hc.1 ▸ hks)
          have hgb : ¬(g.speaker = b ∧ 0 < overlapLen s e g) :=
            fun hc => h1.2.1 (hc.1 ▸ hks)
          rw [firstPosIdx_cons_of_ne s e g rest a hga,
            firstPosIdx_cons_of_ne s e g rest b hgb]
          omega
      · rw [if_neg hks] at h
        rcases ih (ks ++ [g.speaker]) a b h with h1 | h1 | h1
        · obtain ⟨hbmem, hidx⟩ := h1
          by_cases hbks : b ∈ ks
          · have hib : (ks ++ [g.speaker]).indexOf b = ks.indexOf b :=
              List.indexOf_append_of_mem hbks
            have hblen : ks.indexOf b < ks.length := List.indexOf_lt_length.mpr hbks
            by_cases haks : a ∈ ks
            · have hia : (ks ++ [g.speaker]).indexOf a = ks.indexOf a :=
                List.indexOf_append_of_mem haks
              rw [hia, hib] at hidx
              exact Or.inl ⟨hbks, hidx⟩
            · have hia : (ks ++ [g.speaker]).indexOf a
                  = ks.length + [g.speaker].indexOf a :=
                List.indexOf_append_of_not_mem haks
              rw [hia, hib] at hidx
              omega
          · have hb : b = g.speaker := by
              rcases List.mem_append.mp hbmem with h2 | h2
              · exact absurd h2 hbks
              · simpa using h2
            have hib : (ks ++ [g.speaker]).indexOf b
                = ks.length + [g.speaker].indexOf b :=
              List.indexOf_append_of_not_mem hbks
            have hib0 : ([g.speaker] : List String).indexOf b = 0 := by
              rw [hb, List.indexOf_cons_self]
            have haks : a ∈ ks := by
              by_contra hc
              have hia : (ks ++ [g.speaker]).indexOf a
                  = ks.length + [g.speaker].indexOf a :=
                List.indexOf_append_of_not_mem hc
              rw [hia, hib, hib0] at hidx
              omega
            exact Or.inr (Or.inl ⟨haks, hb ▸ hks⟩)
        · obtain ⟨haa, hbb⟩ := h1
          have hbks : b ∉ ks := fun hc => hbb (List.mem_append.mpr (Or.inl hc))
          have hbsp : ¬b = g.speaker :=
            fun hc => hbb (List.mem_append.mpr (Or.inr (by simp [hc])))
          rcases List.mem_append.mp haa with h2 | h2
          · exact Or.inr (Or.inl ⟨h2, hbks⟩)
          · have ha : a = g.speaker := by simpa using h2
            refine Or.inr (Or.inr ⟨ha ▸ hks, hbks, ?_⟩)
            rw [firstPosIdx_cons_self s e g rest a ha.symm hov,
              firstPosIdx_cons_of_ne s e g rest b (fun hc => hbsp hc.1.symm)]
            omega
        · obtain ⟨ha, hb, hlt⟩ := h1
          have haks : a ∉ ks := fun hc => ha (List.mem_append.mpr (Or.inl hc))
          have hbks : b ∉ ks := fun hc => hb (List.mem_append.mpr (Or.inl hc))
          have hasp : ¬a = g.speaker :=
            fun hc => ha (List.mem_append.mpr (Or.inr (by simp [hc])))
          have hbsp : ¬b = g.speaker :=
            fun hc => hb (List.mem_append.mpr (Or.inr (by simp [hc])))
          refine Or.inr (Or.inr ⟨haks, hbks, ?_⟩)
          rw [firstPosIdx_cons_of_ne s e g rest a (fun hc => hasp hc.1.symm),
            firstPosIdx_cons_of_ne s e g rest b (fun hc => hbsp hc.1.symm)]
          omega
    · rw [if_neg hov] at h
      rcases ih ks a b h with h1 | h1 | h1
      · exact Or.inl h1
      · exact Or.inr (Or.inl h1)
      · refine Or.inr (Or.inr ⟨h1.1, h1.2.1, ?_⟩)
        have hga : ¬(g.speaker = a ∧ 0 < overlapLen s e g) := fun hc => hov hc.2
        have hgb : ¬(g.speaker = b ∧ 0 < overlapLen s e g) := fun hc => hov hc.2
        rw [firstPosIdx_cons_of_ne s e g rest a hga,
          firstPosIdx_cons_of_ne s e g rest b hgb]
        omega

/-- Python `max` keeps the first maximum: the scan result splits the list
into a strictly-smaller prefix, the chosen pair, and a no-larger suffix. -/
theorem pickMax_split :
    ∀ (l : List (String × ℚ)) (p : String × ℚ),
      ∃ l1 l2, p :: l = l1 ++ pickMax p l :: l2
        ∧ (∀ q ∈ p :: l, q.2 ≤ (pickMax p l).2)
        ∧ (∀ q ∈ l1, q.2 < (pickMax p l).2) := by
  intro l
  induction l with
  | nil =>
    intro p
    refine ⟨[], [], rfl, ?_, by simp⟩
    intro q hq
    have : q = p := by simpa using hq
    rw [this, pickMax]
  | cons q0 rest ih =>
    intro p
    rw [pickMax]
    by_cases hlt : p.2 < q0.2
    · rw [if_pos hlt]
      obtain ⟨l1, l2, heq, hmax, hstrict⟩ := ih q0
      refine ⟨p :: l1, l2, ?_, ?_, ?_⟩
      · rw [List.cons_append, ← heq]
      · intro q hq
        rcases List.mem_cons.mp hq with h | h
        · rw [h]
          exact le_of_lt (lt_of_lt_of_le hlt (hmax q0 (List.mem_cons.mpr (Or.inl rfl))))
        · exact hmax q h
      · intro q hq
        rcases List.mem_cons.mp hq with h | h
        · rw [h]
          exact lt_of_lt_of_le hlt (hmax q0 (List.mem_cons.mpr (Or.inl rfl)))
        · exact hstrict q h
    · rw [if_neg hlt]
      have hle : q0.2 ≤ p.2 := not_lt.mp hlt
      obtain ⟨l1, l2, heq, hmax, hstrict⟩ := ih p
      cases l1 with
      | nil =>
        simp only [List.nil_append] at heq
        have h1 : pickMax p rest = p := (List.cons.injEq .. ▸ heq).1.symm
        have h2 : rest = l2 := (List.cons.injEq .. ▸ heq).2
        refine ⟨[], q0 :: l2, ?_, ?_, by simp⟩
        · rw [List.nil_append, h1, ← h2]
        · intro q hq
          rcases List.mem_cons.mp hq with h | h
          · rw [h]
            exact hmax p (List.mem_cons.mpr (Or.inl rfl))
          · rcases List.mem_cons.mp h with h3 | h3
            · rw [h3, h1]
              exact hle
            · exact hmax q (List.mem_cons.mpr (Or.inr h3))
      | cons x l1' =>
        simp only [List.cons_append] at heq
        have hx : x = p := ((List.cons.injEq .. ▸ heq).1).symm
        have hrest : rest = l1' ++ pickMax p rest :: l2 := (List.cons.injEq .. ▸ heq).2
        refine ⟨p :: q0 :: l1', l2, ?_, ?_, ?_⟩
        · rw [List.cons_append, List.cons_append, ← hrest]
        · intro q hq
          rcases List.mem_cons.mp hq with h | h
          · rw [h]
            exact hmax p (List.mem_cons.mpr (Or.inl rfl))
          · rcases List.mem_cons.mp h with h3 | h3
            · rw [h3]
              exact le_trans hle (hmax p (List.mem_cons.mpr (Or.inl rfl)))
            · exact hmax q (List.mem_cons.mpr (Or.inr h3))
        · intro q hq
          rcases List.mem_cons.mp hq with h | h
          · rw [h]
            have hp : p ∈ x :: l1' := by rw [hx]; exact List.mem_cons.mpr (Or.inl rfl)
            exact hstrict p hp
          · rcases List.mem_cons.mp h with h3 | h3
            · rw [h3]
              have hp : p ∈ x :: l1' := by rw [hx]; exact List.mem_cons.mpr (Or.inl rfl)
              exact lt_of_le_of_lt hle (hstrict p hp)
            · exact hstrict q (List.mem_cons.mpr (Or.inr h3))

/-- C1 counterexample: segment `[0, 1]` with diarization intervals
`[(0, 1, "B"), (0, 1, "A")]`.  Both speakers have total overlap 1 — the
shared maximum — and the code picks `"B"` (the first speaker inserted into
the dict), not the lexicographically lowest label `"A"`. -/
theorem speaker_tiebreak_counterexample :
    find_speaker_for_segment [⟨0, 1, "B"⟩, ⟨0, 1, "A"⟩] 0 1 = some "B"
    ∧ totalOverlap 0 1 [⟨0, 1, "B"⟩, ⟨0, 1, "A"⟩] "A"
        = totalOverlap 0 1 [⟨0, 1, "B"⟩, ⟨0, 1, "A"⟩] "B"
    ∧ (∀ g ∈ [(⟨0, 1, "B"⟩ : DiarSeg), ⟨0, 1, "A"⟩],
        totalOverlap 0 1 [(⟨0, 1, "B"⟩ : DiarSeg), ⟨0, 1, "A"⟩] g.speaker
          ≤ totalOverlap 0 1 [(⟨0, 1, "B"⟩ : DiarSeg), ⟨0, 1, "A"⟩] "A")
    ∧ ("A" : String) < "B" := by
  have hovB : overlapLen 0 1 (⟨0, 1, "B"⟩ : DiarSeg) = 1 := by rw [overlapLen]; norm_num
  have hovA : overlapLen 0 1 (⟨0, 1, "A"⟩ : DiarSeg) = 1 := by rw [overlapLen]; norm_num
  have hst : speaker_times [⟨0, 1, "B"⟩, ⟨0, 1, "A"⟩] 0 1 = [("B", 1), ("A", 1)] := by
    rw [speaker_times, speakerTimesFrom]
    simp only [hovB]
    norm_num
    rw [speakerTimesFrom]
    simp only [hovA]
    norm_num [addTime, speakerTimesFrom]
    decide
  have htA : totalOverlap 0 1 [(⟨0, 1, "B"⟩ : DiarSeg), ⟨0, 1, "A"⟩] "A" = 1 := by
    rw [totalOverlap, totalOverlap, totalOverlap,
      if_neg (by decide : ¬("B" : String) = "A"), if_pos rfl, hovA]
    norm_num
  have htB : totalOverlap 0 1 [(⟨0, 1, "B"⟩ : DiarSeg), ⟨0, 1, "A"⟩] "B" = 1 := by
    rw [totalOverlap, totalOverlap, totalOverlap,
      if_pos rfl, if_neg (by decide : ¬("A" : String) = "B"), hovB]
    norm_num
  refine ⟨?_, ?_, ?_, by rw [String.lt_iff_toList_lt]; decide⟩
  · rw [find_speaker_for_segment, hst, maxBySnd, pickMax, pickMax,
      if_neg (by norm_num : ¬(1 : ℚ) < 1)]
  · rw [htA, htB]
  · intro g hg
    rcases List.mem_cons.mp hg with h | h
    · rw [h]
      show totalOverlap 0 1 _ "B" ≤ _
      rw [htA, htB]
    · have h2 : g = (⟨0, 1, "A"⟩ : DiarSeg) := by simpa using h
      rw [h2]

/-- C1 amended: the chosen speaker (if any) has the maximum total overlap
with the segment among all speakers, and that total is positive; a segment
with zero overlap everywhere gets no speaker; but a tie between speakers of
equal maximal total overlap is broken in favour of the speaker whose first
positive-overlap interval appears earliest in the diarization list (dict
insertion order and first-maximum `max`), NOT the lexicographically lowest
label. -/
theorem find_speaker_overlap_law :
    (∀ (d : List DiarSeg) (s e : ℚ),
      find_speaker_for_segment d s e = none ↔ ∀ g ∈ d, overlapLen s e g = 0)
    ∧ (∀ (d : List DiarSeg) (s e : ℚ) (sp : String),
      find_speaker_for_segment d s e = some sp →
        0 < totalOverlap s e d sp
        ∧ (∀ q : String, totalOverlap s e d q ≤ totalOverlap s e d sp)
        ∧ (∀ q : String, totalOverlap s e d q = totalOverlap s e d sp → q ≠ sp →
            firstPosIdx s e d sp < firstPosIdx s e d q)) := by
  have hkeys : ∀ (d : List DiarSeg) (s e : ℚ),
      (speaker_times d s e).map Prod.fst = posOrder s e d [] := by
    intro d s e
    rw [speaker_times, keys_speakerTimesFrom]
    rfl
  have hlook : ∀ (d : List DiarSeg) (s e : ℚ) (q : String),
      lookupV (speaker_times d s e) q = totalOverlap s e d q := by
    intro d s e q
    rw [speaker_times, lookupV_speakerTimesFrom]
    simp [lookupV]
  constructor
  · intro d s e
    rw [find_speaker_for_segment]
    constructor
    · intro h g hg
      have hst : speaker_times d s e = [] := by
        cases hst : speaker_times d s e with
        | nil => rfl
        | cons p rest => rw [hst, maxBySnd] at h; exact absurd h (by simp)
      have hnot : ¬0 < totalOverlap s e d g.speaker := by
        intro hpos
        have hmem : g.speaker ∈ posOrder s e d [] :=
          (mem_posOrder s e d [] g.speaker).mpr (Or.inr hpos)
        rw [← hkeys d s e, hst] at hmem
        exact absurd hmem (by simp)
      have h1 := overlapLen_le_totalOverlap s e d g hg
      have h2 := overlapLen_nonneg s e g
      have h3 := not_lt.mp hnot
      linarith
    · intro hall
      have hpo : posOrder s e d [] = [] := by
        rw [List.eq_nil_iff_forall_not_mem]
        intro q hq
        rcases (mem_posOrder s e d [] q).mp hq with h | h
        · exact absurd h (by simp)
        · rw [totalOverlap_eq_zero s e d hall q] at h
          exact absurd h (by norm_num)
      have hst : speaker_times d s e = [] := by
        have := hkeys d s e
        rw [hpo] at this
        exact List.map_eq_nil.mp this
      rw [hst]
      rfl
  · intro d s e sp h
    have hnodup : ((speaker_times d s e).map Prod.fst).Nodup := by
      rw [hkeys d s e]
      exact nodup_posOrder s e d [] List.nodup_nil
    cases hst : speaker_times d s e with
    | nil =>
      rw [find_speaker_for_segment, hst] at h
      exact absurd h (by simp [maxBySnd])
    | cons p rest =>
      rw [find_speaker_for_segment, hst, maxBySnd] at h
      have hsp : (pickMax p rest).1 = sp := Option.some.inj h
      obtain ⟨l1, l2, heq, hmax, hstrict⟩ := pickMax_split rest p
      have hrmem : pickMax p rest ∈ speaker_times d s e := by
        rw [hst, heq]
        exact List.mem_append.mpr (Or.inr (List.mem_cons.mpr (Or.inl rfl)))
      have hpair : (sp, (pickMax p rest).2) ∈ speaker_times d s e := by
        have h2 : (sp, (pickMax p rest).2) = pickMax p rest := by rw [← hsp]
        rw [h2]
        exact hrmem
      have hvsp : totalOverlap s e d sp = (pickMax p rest).2 := by
        rw [← hlook d s e sp]
        exact lookupV_eq_of_mem _ hnodup sp _ hpair
      have hpos : 0 < totalOverlap s e d sp := by
        have hmem : sp ∈ (speaker_times d s e).map Prod.fst :=
          List.mem_map.mpr ⟨_, hpair, rfl⟩
        rw [hkeys d s e] at hmem
        rcases (mem_posOrder s e d [] sp).mp hmem with h2 | h2
        · exact absurd h2 (by simp)
        · exact h2
      refine ⟨hpos, ?_, ?_⟩
      · intro q
        by_cases hq : 0 < totalOverlap s e d q
        · have hmem : q ∈ (speaker_times d s e).map Prod.fst := by
            rw [hkeys d s e]
            exact (mem_posOrder s e d [] q).mpr (Or.inr hq)
          obtain ⟨pr, hpr, hfst⟩ := List.mem_map.mp hmem
          have hpairq : (q, pr.2) ∈ speaker_times d s e := by
            have h3 : (q, pr.2) = pr := by rw [← hfst]
            rw [h3]
            exact hpr
          have hvq : totalOverlap s e d q = pr.2 := by
            rw [← hlook d s e q]
            exact lookupV_eq_of_mem _ hnodup q _ hpairq
          have hle : pr.2 ≤ (pickMax p rest).2 := by
            rw [hst] at hpr
            exact hmax pr hpr
          rw [hvq, hvsp]
          exact hle
        · have h1 := totalOverlap_nonneg s e d q
          linarith
      · intro q hqeq hqne
        have hqpos : 0 < totalOverlap s e d q := by rw [hqeq]; exact hpos
        have hmem : q ∈ (speaker_times d s e).map Prod.fst := by
          rw [hkeys d s e]
          exact (mem_posOrder s e d [] q).mpr (Or.inr hqpos)
        obtain ⟨pr, hpr, hfst⟩ := List.mem_map.mp hmem
        have hpairq : (q, pr.2) ∈ speaker_times d s e := by
          have h3 : (q, pr.2) = pr := by rw [← hfst]
          rw [h3]
          exact hpr
        have hvq : pr.2 = totalOverlap s e d q := by
          rw [← hlook d s e q, lookupV_eq_of_mem _ hnodup q _ hpairq]
        have hqpr_in : (q, pr.2) ∈ l1 ++ pickMax p rest :: l2 := by
          rw [← heq, ← hst]
          exact hpairq
        have hql2 : (q, pr.2) ∈ l2 := by
          rcases List.mem_append.mp hqpr_in with h2 | h2
          · exfalso
            have h3 := hstrict _ h2
            simp only at h3
            rw [hvq, hqeq, hvsp] at h3
            exact lt_irrefl _ h3
          · rcases List.mem_cons.mp h2 with h3 | h3
            · exfalso
              have h4 : q = sp := by rw [← hsp, ← h3]
              exact hqne h4
            · exact h3
        have hkeysplit : (speaker_times d s e).map Prod.fst
            = l1.map Prod.fst ++ sp :: l2.map Prod.fst := by
          rw [hst, heq, List.map_append, List.map_cons, hsp]
        have hqkey2 : q ∈ l2.map Prod.fst := List.mem_map.mpr ⟨(q, pr.2), hql2, rfl⟩
        have hnodup2 : (l1.map Prod.fst ++ sp :: l2.map Prod.fst).Nodup := by
          rw [← hkeysplit]
          exact hnodup
        have hdisj : List.Disjoint (l1.map Prod.fst) (sp :: l2.map Prod.fst) :=
          List.disjoint_of_nodup_append hnodup2
        have hspnot : sp ∉ l1.map Prod.fst :=
          fun hc => hdisj hc (List.mem_cons.mpr (Or.inl rfl))
        have hqnot : q ∉ l1.map Prod.fst :=
          fun hc => hdisj hc (List.mem_cons.mpr (Or.inr hqkey2))
        have hidx_sp : (l1.map Prod.fst ++ sp :: l2.map Prod.fst).indexOf sp
            = (l1.map Prod.fst).length := by
          rw [List.indexOf_append_of_not_mem hspnot, List.indexOf_cons_self]
          omega
        have hidx_q : (l1.map Prod.fst ++ sp :: l2.map Prod.fst).indexOf q
            = (l1.map Prod.fst).length + ((l2.map Prod.fst).indexOf q + 1) := by
          rw [List.indexOf_append_of_not_mem hqnot,
            List.indexOf_cons_ne _ (Ne.symm hqne)]
        have hbefore : listBefore (posOrder s e d []) sp q := by
          rw [listBefore, ← hkeys d s e, hkeysplit]
          constructor
          · exact List.mem_append.mpr (Or.inr (List.mem_cons.mpr (Or.inr hqkey2)))
          · rw [hidx_sp, hidx_q]
            omega
        rcases posOrder_before s e d [] sp q hbefore with h2 | h2 | h2
        · exact absurd h2.1 (by simp)
        · exact absurd h2.1 (by simp)
        · exact h2.2.2

/-- Witness for the amended C1 law at a concrete diarization: the single
interval `[0, 1]` of speaker `X` fully overlaps the query segment `[0, 1]`,
so `X` is chosen and its total overlap is positive. -/
theorem find_speaker_overlap_law_witness :
    find_speaker_for_segment [⟨0, 1, "X"⟩] 0 1 = some "X"
    ∧ 0 < totalOverlap 0 1 [⟨0, 1, "X"⟩] "X" := by
  have h : find_speaker_for_segment [⟨0, 1, "X"⟩] 0 1 = some "X" := by
    rw [find_speaker_for_segment, speaker_times]
    norm_num [speakerTimesFrom, overlapLen, addTime, maxBySnd, pickMax]
  exact ⟨h, (find_speaker_overlap_law.2 [⟨0, 1, "X"⟩] 0 1 "X" h).1⟩
